import Mathlib

/-!
Shallow embedding of the SCP quorum-set algebra of src/src/scp/LocalNode.cpp
(stellar-core). NodeID values are modelled as natural numbers: the code treats
them as opaque, totally ordered, comparable identifiers. Machine integers are
modelled as Nat (for unsigned values) or Int (for the signed counter in
isVBlockingInternal); the one place where unsigned wrap-around is reachable,
the uint32 decrement of thresholdLeft in isQuorumSliceInternal, is modelled
exactly via dec32.  std::vector and std::set of NodeID are both modelled as
List Nat: the code only ever queries them for membership and iterates them.
-/

/-- The XDR SCPQuorumSet: a threshold (uint32), a vector of validator NodeIDs
and a vector of nested quorum sets. -/
structure SCPQuorumSet where
  threshold : Nat
  validators : List Nat
  innerSets : List SCPQuorumSet

instance : Inhabited SCPQuorumSet := ⟨⟨0, [], []⟩⟩

def UINT32_MAX : Nat := 4294967295

def UINT64_MAX : Nat := 18446744073709551615

/-- Decrement of a uint32 value, with the wrap-around at 0 that the C++
operator-- performs. -/
def dec32 (t : Nat) : Nat := if t = 0 then UINT32_MAX else t - 1

/-- The guarded decrement the canonicalizer uses:
if (qSet.threshold) qSet.threshold--  (LocalNode.cpp:109-112, 126-129). -/
def decThreshold (t : Nat) : Nat := if t = 0 then t else t - 1

mutual

/-- All NodeIDs contained in a quorum set tree, in the traversal order of
LocalNode::forAllNodesInternal (LocalNode.cpp:208-220): validators first,
then the inner sets left to right. -/
def nodesOf : SCPQuorumSet → List Nat
  | ⟨_, vs, inners⟩ => vs ++ nodesOfList inners
termination_by structural q => q

/-- Nodes of a list of inner sets, in order. -/
def nodesOfList : List SCPQuorumSet → List Nat
  | [] => []
  | q :: qs => nodesOf q ++ nodesOfList qs
termination_by structural qs => qs

end

/-- LocalNode::buildSingletonQSet (LocalNode.cpp:39-46). -/
def buildSingletonQSet (nodeID : Nat) : SCPQuorumSet := ⟨1, [nodeID], []⟩

/-! ## isQuorumSlice (LocalNode.cpp:269-309) -/

/-- The validator loop of LocalNode::isQuorumSliceInternal
(LocalNode.cpp:274-285): scans the validators, decrementing the uint32
thresholdLeft for each one present in nodeSet; none models the early
return true, some t the fall-through with the remaining counter. -/
def sliceValsLoop (nodeSet : List Nat) : List Nat → Nat → Option Nat
  | [], t => some t
  | v :: vs, t =>
    if v ∈ nodeSet then
      let t' := dec32 t
      if t' = 0 then none else sliceValsLoop nodeSet vs t'
    else sliceValsLoop nodeSet vs t

mutual

/-- LocalNode::isQuorumSliceInternal (LocalNode.cpp:269-299). -/
def isQuorumSliceInternal : SCPQuorumSet → List Nat → Bool
  | ⟨t, vs, inners⟩, nodeSet =>
    match sliceValsLoop nodeSet vs t with
    | none => true
    | some t' => sliceInnersLoop nodeSet inners t'
termination_by structural q _ => q

/-- The inner-set loop of LocalNode::isQuorumSliceInternal
(LocalNode.cpp:287-297). -/
def sliceInnersLoop (nodeSet : List Nat) : List SCPQuorumSet → Nat → Bool
  | [], _ => false
  | q :: qs, t =>
    if isQuorumSliceInternal q nodeSet then
      let t' := dec32 t
      if t' = 0 then true else sliceInnersLoop nodeSet qs t'
    else sliceInnersLoop nodeSet qs t
termination_by structural qs _ => qs

end

/-- LocalNode::isQuorumSlice (LocalNode.cpp:301-309); the log line is dropped. -/
def isQuorumSlice (qSet : SCPQuorumSet) (nodeSet : List Nat) : Bool :=
  isQuorumSliceInternal qSet nodeSet

/-! ## isVBlocking (LocalNode.cpp:312-378)

The counter leftTillBlock is a C++ int initialized from a size_t expression;
it is modelled as a mathematical Int, which coincides with the machine value
for every machine-representable input. -/

/-- The validator loop of LocalNode::isVBlockingInternal
(LocalNode.cpp:326-337): none models the early return true, some c the
fall-through with the remaining counter. -/
def vbValsLoop (nodeSet : List Nat) : List Nat → Int → Option Int
  | [], c => some c
  | v :: vs, c =>
    if v ∈ nodeSet then
      let c' := c - 1
      if c' ≤ 0 then none else vbValsLoop nodeSet vs c'
    else vbValsLoop nodeSet vs c

mutual

/-- LocalNode::isVBlockingInternal (LocalNode.cpp:312-351). -/
def isVBlockingInternal : SCPQuorumSet → List Nat → Bool
  | ⟨t, vs, inners⟩, nodeSet =>
    if t = 0 then false
    else
      let leftTillBlock : Int := (1 + vs.length + inners.length : Int) - t
      match vbValsLoop nodeSet vs leftTillBlock with
      | none => true
      | some c => vbInnersLoop nodeSet inners c
termination_by structural q _ => q

/-- The inner-set loop of LocalNode::isVBlockingInternal
(LocalNode.cpp:338-348). -/
def vbInnersLoop (nodeSet : List Nat) : List SCPQuorumSet → Int → Bool
  | [], _ => false
  | q :: qs, c =>
    if isVBlockingInternal q nodeSet then
      let c' := c - 1
      if c' ≤ 0 then true else vbInnersLoop nodeSet qs c'
    else vbInnersLoop nodeSet qs c
termination_by structural qs _ => qs

end

/-- LocalNode::isVBlocking on a node set (LocalNode.cpp:353-361). -/
def isVBlocking (qSet : SCPQuorumSet) (nodeSet : List Nat) : Bool :=
  isVBlockingInternal qSet nodeSet

/-! ## isQuorumSetSane (LocalNode.cpp:48-85, 168-176)

knownNodes is a std::set threaded by mutable reference through the
recursion; it is modelled as a List Nat accumulator (only membership is ever
queried), returned next to the Bool result. -/

/-- The validator loop of LocalNode::isQuorumSetSaneInternal
(LocalNode.cpp:61-69): each validator is inserted into knownNodes, failing
if it was already present. -/
def saneValsLoop : List Nat → List Nat → Bool × List Nat
  | [], known => (true, known)
  | v :: vs, known =>
    if v ∈ known then (false, known) else saneValsLoop vs (v :: known)

mutual

/-- LocalNode::isQuorumSetSaneInternal (LocalNode.cpp:48-85). -/
def isQuorumSetSaneInternal : SCPQuorumSet → List Nat → Bool × List Nat
  | ⟨t, vs, inners⟩, known =>
    if 1 ≤ t ∧ t ≤ vs.length + inners.length then
      match saneValsLoop vs known with
      | (false, known') => (false, known')
      | (true, known') => saneInnersLoop inners known'
    else (false, known)
termination_by structural q _ => q

/-- The inner-set loop of LocalNode::isQuorumSetSaneInternal
(LocalNode.cpp:71-77). -/
def saneInnersLoop : List SCPQuorumSet → List Nat → Bool × List Nat
  | [], known => (true, known)
  | q :: qs, known =>
    match isQuorumSetSaneInternal q known with
    | (false, known') => (false, known')
    | (true, known') => saneInnersLoop qs known'
termination_by structural qs _ => qs

end

/-- LocalNode::isQuorumSetSane (LocalNode.cpp:168-176).  mNodeID and
mIsValidator are the member fields of the LocalNode on which the method is
invoked, passed explicitly here. -/
def isQuorumSetSane (mNodeID : Nat) (mIsValidator : Bool) (nodeID : Nat)
    (qSet : SCPQuorumSet) : Bool :=
  let r := isQuorumSetSaneInternal qSet []
  r.1 && (decide (nodeID ∈ r.2) || (!mIsValidator && decide (nodeID = mNodeID)))

/-! ## adjustQSet (LocalNode.cpp:95-166) -/

/-- The validator loop of LocalNode::adjustQSetHelper
(LocalNode.cpp:120-136): removes every occurrence of self from the
validators, decrementing the threshold (when nonzero) per removal. -/
def removeSelfLoop (self : Nat) : List Nat → Nat → List Nat × Nat
  | [], t => ([], t)
  | v :: vs, t =>
    if v = self then removeSelfLoop self vs (decThreshold t)
    else
      let (vs', t') := removeSelfLoop self vs t
      (v :: vs', t')

mutual

/-- LocalNode::adjustQSetHelper (LocalNode.cpp:95-144): adjusts the inner
sets (erasing those whose adjusted threshold is 0), removes self from the
validators, then collapses a singleton { t:1, [], [inner] } into inner. -/
def adjustQSetHelper (self : Nat) : SCPQuorumSet → SCPQuorumSet
  | ⟨t, vs, inners⟩ =>
    let (inners', t1) := adjustInnersLoop self inners t
    let (vs', t2) := removeSelfLoop self vs t1
    match inners', vs', t2 with
    | [q], [], 1 => q
    | i', v', t' => ⟨t', v', i'⟩
termination_by structural q => q

/-- The inner-set loop of LocalNode::adjustQSetHelper
(LocalNode.cpp:100-118): each inner set is adjusted; those left with
threshold 0 are erased, decrementing the parent threshold (when nonzero). -/
def adjustInnersLoop (self : Nat) : List SCPQuorumSet → Nat → List SCPQuorumSet × Nat
  | [], t => ([], t)
  | q :: qs, t =>
    let q' := adjustQSetHelper self q
    if q'.threshold = 0 then adjustInnersLoop self qs (decThreshold t)
    else
      let (qs', t') := adjustInnersLoop self qs t
      (q' :: qs', t')
termination_by structural qs _ => qs

end

/-- LocalNode::adjustQSet (LocalNode.cpp:146-166): rewrites the configured
quorum set into { t:2, [self], [adjusted remainder] }, or { t:1, [self], [] }
when the remainder collapsed away. -/
def adjustQSet (self : Nat) (qSet : SCPQuorumSet) : SCPQuorumSet :=
  let aQSet := adjustQSetHelper self qSet
  if aQSet.threshold ≠ 0 then ⟨2, [self], [aQSet]⟩ else ⟨1, [self], []⟩

/-! ## getNodeWeight (LocalNode.cpp:240-267) -/

/-- Modelled from the spec: bigDivide lives in util/types.cpp, which is not
part of this repository snapshot.  Per the spec it computes
a * b / c with an overflow-safe 128-bit intermediate (exact since a, b fit
in 64 bits), rounding down. -/
def bigDivide (a b c : Nat) : Nat := a * b / c

mutual

/-- LocalNode::getNodeWeight (LocalNode.cpp:240-267).  The scan of the
validators for nodeID is a membership test (a repeated validator's first
occurrence gives the same value). -/
def getNodeWeight (nodeID : Nat) : SCPQuorumSet → Nat
  | ⟨t, vs, inners⟩ =>
    if nodeID ∈ vs then bigDivide UINT64_MAX t (inners.length + vs.length)
    else weightInnersLoop nodeID t (inners.length + vs.length) inners
termination_by structural q => q

/-- The inner-set loop of LocalNode::getNodeWeight (LocalNode.cpp:256-264):
the first inner set with a nonzero leaf weight wins, scaled by n/d. -/
def weightInnersLoop (nodeID n d : Nat) : List SCPQuorumSet → Nat
  | [] => 0
  | q :: qs =>
    let leafW := getNodeWeight nodeID q
    if leafW ≠ 0 then bigDivide leafW n d else weightInnersLoop nodeID n d qs
termination_by structural qs => qs

end

/-! ## findClosestVBlocking (LocalNode.cpp:414-505)

leftTillBlock is a size_t here; under a threshold in the well-formed range
[1, totEntries] it stays in [0, totEntries + 1] and never wraps, and the
claims below only concern such sets, so it is modelled as a plain Nat
(truncating subtraction replaces the unreachable unsigned wrap). -/

/-- The validator loop of the set-based LocalNode::findClosestVBlocking
(LocalNode.cpp:440-457): validators absent from the candidate set count
toward blocking (none models the early return of the empty vector once
leftTillBlock hits 0); present validators are retained in res. -/
def fcvbValsLoop (nodes : List Nat) : List Nat → Nat → List Nat → Option (Nat × List Nat)
  | [], ltb, res => some (ltb, res)
  | v :: vs, ltb, res =>
    if v ∈ nodes then fcvbValsLoop nodes vs ltb (res ++ [v])
    else
      let ltb' := ltb - 1
      if ltb' = 0 then none else fcvbValsLoop nodes vs ltb' res

/-- Insertion into the std::multiset of witness vectors ordered by size
(LocalNode.cpp:459-468): a new element goes after all existing elements of
equal size. -/
def insertBySize (v : List Nat) : List (List Nat) → List (List Nat)
  | [] => [v]
  | w :: ws => if v.length < w.length then v :: w :: ws else w :: insertBySize v ws

/-- The final while loop of LocalNode::findClosestVBlocking
(LocalNode.cpp:496-502): append whole witness vectors, smallest first, one
per remaining unit of leftTillBlock. -/
def takeWitnesses : Nat → List (List Nat) → List Nat
  | 0, _ => []
  | _ + 1, [] => []
  | n + 1, w :: ws => w ++ takeWitnesses n ws

mutual

/-- The set-based LocalNode::findClosestVBlocking (LocalNode.cpp:430-505). -/
def findClosestVBlocking : SCPQuorumSet → List Nat → List Nat
  | ⟨t, vs, inners⟩, nodes =>
    let leftTillBlock := (1 + vs.length + inners.length) - t
    match fcvbValsLoop nodes vs leftTillBlock [] with
    | none => []
    | some (ltb1, res) =>
      match fcvbInnersLoop nodes inners ltb1 [] with
      | none => []
      | some (ltb2, resInternals) =>
        let res' := if res.length > ltb2 then res.take ltb2 else res
        res' ++ takeWitnesses (ltb2 - res'.length) resInternals
termination_by structural q _ => q

/-- The inner-set loop of LocalNode::findClosestVBlocking
(LocalNode.cpp:470-486): an inner set whose recursive witness is empty is
already blocked and counts toward leftTillBlock; nonempty witnesses are
collected ordered by size. -/
def fcvbInnersLoop (nodes : List Nat) :
    List SCPQuorumSet → Nat → List (List Nat) → Option (Nat × List (List Nat))
  | [], ltb, acc => some (ltb, acc)
  | q :: qs, ltb, acc =>
    let v := findClosestVBlocking q nodes
    if v.length = 0 then
      let ltb' := ltb - 1
      if ltb' = 0 then none else fcvbInnersLoop nodes qs ltb' acc
    else fcvbInnersLoop nodes qs ltb (insertBySize v acc)
termination_by structural qs _ _ => qs

end

/-! ## isQuorum (LocalNode.cpp:363-412)

Envelopes are opaque here: a statement map is a List (Nat × α) (the std::map
iterated in its order), together with the externally supplied accessor
qfun : α → SCPQuorumSet and the relevance predicate filter : α → Bool. -/

/-- The pNodes initialization shared by isQuorum and the map-based
isVBlocking (LocalNode.cpp:386-393): the keys whose statement passes the
relevance predicate. -/
def relevantNodes {α : Type} (map : List (Nat × α)) (filter : α → Bool) : List Nat :=
  (map.filter (fun p => filter p.2)).map Prod.fst

/-- The quorum set a node claims, looked up through the statement map
(map.find(nodeID)->second.statement at LocalNode.cpp:402); the default is
never reached for nodes drawn from the map. -/
def qfunOfMap {α : Type} (map : List (Nat × α)) (qfun : α → SCPQuorumSet)
    (nodeID : Nat) : SCPQuorumSet :=
  match List.lookup nodeID map with
  | some s => qfun s
  | none => ⟨0, [], []⟩

/-- One filtering round of the isQuorum loop (LocalNode.cpp:399-408): keep
the nodes whose own quorum set is satisfied by the current pool. -/
def quorumFilterStep (qfunN : Nat → SCPQuorumSet) (pNodes : List Nat) : List Nat :=
  pNodes.filter (fun n => isQuorumSlice (qfunN n) pNodes)

/-- The do-while fixed-point loop of LocalNode::isQuorum
(LocalNode.cpp:395-409): re-filter until the pool size stops changing. -/
def isQuorumLoop (qfunN : Nat → SCPQuorumSet) (pNodes : List Nat) : List Nat :=
  if (quorumFilterStep qfunN pNodes).length = pNodes.length then
    quorumFilterStep qfunN pNodes
  else isQuorumLoop qfunN (quorumFilterStep qfunN pNodes)
termination_by pNodes.length
decreasing_by
  have hle : (quorumFilterStep qfunN pNodes).length ≤ pNodes.length :=
    List.length_filter_le _ _
  omega

/-- The number of filtering rounds the do-while loop of LocalNode::isQuorum
executes (each iteration of the loop body is one round). -/
def quorumRounds (qfunN : Nat → SCPQuorumSet) (pNodes : List Nat) : Nat :=
  if (quorumFilterStep qfunN pNodes).length = pNodes.length then 1
  else 1 + quorumRounds qfunN (quorumFilterStep qfunN pNodes)
termination_by pNodes.length
decreasing_by
  have hle : (quorumFilterStep qfunN pNodes).length ≤ pNodes.length :=
    List.length_filter_le _ _
  omega

/-- LocalNode::isQuorum (LocalNode.cpp:380-412). -/
def isQuorum {α : Type} (qSet : SCPQuorumSet) (map : List (Nat × α))
    (qfun : α → SCPQuorumSet) (filter : α → Bool) : Bool :=
  isQuorumSlice qSet (isQuorumLoop (qfunOfMap map qfun) (relevantNodes map filter))

/-! ## LocalNode state (LocalNode.cpp:20-37, 178-201, 533-543)

The secret key and the hash are opaque to this core; the key is a Nat tag
and the content hash is supplied as an abstract function on quorum sets
(sha256 of the XDR encoding in the C++). -/

structure LocalNode where
  mNodeID : Nat
  mSecretKey : Nat
  mIsValidator : Bool
  mQSet : SCPQuorumSet
  mQSetHash : Nat
  mSingleQSet : SCPQuorumSet

/-- The LocalNode constructor (LocalNode.cpp:20-37): canonicalizes the
configured quorum set, hashes it, and precomputes the singleton set.
pubKey stands for secretKey.getPublicKey(). -/
def LocalNode.init (hashQ : SCPQuorumSet → Nat) (pubKey secretKey : Nat)
    (isV : Bool) (qSet : SCPQuorumSet) : LocalNode :=
  let adjusted := adjustQSet pubKey qSet
  ⟨pubKey, secretKey, isV, adjusted, hashQ adjusted, buildSingletonQSet pubKey⟩

/-- LocalNode::updateQuorumSet (LocalNode.cpp:178-183). -/
def updateQuorumSet (hashQ : SCPQuorumSet → Nat) (ln : LocalNode)
    (qSet : SCPQuorumSet) : LocalNode :=
  { ln with mQSetHash := hashQ qSet, mQSet := qSet }

/-- LocalNode::getQuorumSet (LocalNode.cpp:185-189). -/
def getQuorumSet (ln : LocalNode) : SCPQuorumSet := ln.mQSet

/-- LocalNode::getQuorumSetHash (LocalNode.cpp:191-195). -/
def getQuorumSetHash (ln : LocalNode) : Nat := ln.mQSetHash

/-! ## Spec-side definitions

These follow the wording of the specification (its well-formedness invariant
and its recursive description of quorum-set satisfaction); they are compared
against the code-derived functions above. -/

mutual

/-- Spec well-formedness, threshold part: at every node of the tree the
threshold lies in [1, number of direct entries]. -/
def wfThresholds : SCPQuorumSet → Bool
  | ⟨t, vs, inners⟩ =>
    decide (1 ≤ t) && decide (t ≤ vs.length + inners.length) && wfThresholdsList inners
termination_by structural q => q

/-- wfThresholds over a list of inner sets. -/
def wfThresholdsList : List SCPQuorumSet → Bool
  | [] => true
  | q :: qs => wfThresholds q && wfThresholdsList qs
termination_by structural qs => qs

end

/-- Spec well-formedness: thresholds in range at every node, and the NodeIDs
appearing anywhere in the tree pairwise distinct. -/
def wellFormedQS (q : SCPQuorumSet) : Bool :=
  wfThresholds q && decide (nodesOf q).Nodup

mutual

/-- The weaker hypothesis of the quorum-slice claim: threshold at least 1 at
every node of the tree. -/
def thresholdsPos : SCPQuorumSet → Bool
  | ⟨t, _, inners⟩ => decide (1 ≤ t) && thresholdsPosList inners
termination_by structural q => q

/-- thresholdsPos over a list of inner sets. -/
def thresholdsPosList : List SCPQuorumSet → Bool
  | [] => true
  | q :: qs => thresholdsPos q && thresholdsPosList qs
termination_by structural qs => qs

end

mutual

/-- The specification's recursive satisfaction relation, following its words:
a QuorumSet is satisfied against S iff at least threshold of its direct
entries are satisfied, a validator entry being satisfied iff it is a member
of S and an inner-set entry iff it is recursively satisfied against S. -/
def specSatisfied : SCPQuorumSet → List Nat → Bool
  | ⟨t, vs, inners⟩, S =>
    decide (t ≤ List.countP (fun v => decide (v ∈ S)) vs + specSatisfiedCount inners S)
termination_by structural q _ => q

/-- The number of satisfied entries among a list of inner sets. -/
def specSatisfiedCount : List SCPQuorumSet → List Nat → Nat
  | [], _ => 0
  | q :: qs, S => (if specSatisfied q S then 1 else 0) + specSatisfiedCount qs S
termination_by structural qs _ => qs

end

/-- The validators of the tree that are absent from the candidate set C: the
nodes findClosestVBlocking treats as already failed. -/
def missingFrom (q : SCPQuorumSet) (C : List Nat) : List Nat :=
  (nodesOf q).filter (fun v => decide (v ∉ C))

mutual

/-- Proof-side construction for the v-blocking duality: a candidate slice
disjoint from S, built from the validators outside S and, recursively, the
witnesses of the inner sets. -/
def sliceWitness (S : List Nat) : SCPQuorumSet → List Nat
  | ⟨_, vs, inners⟩ => vs.filter (fun v => decide (v ∉ S)) ++ sliceWitnessList S inners
termination_by structural q => q

/-- sliceWitness over a list of inner sets. -/
def sliceWitnessList (S : List Nat) : List SCPQuorumSet → List Nat
  | [] => []
  | q :: qs => sliceWitness S q ++ sliceWitnessList S qs
termination_by structural qs => qs

end

mutual

/-- Proof-side invariant of adjustQSetHelper's output: self appears in no
validator list, every inner set has a nonzero threshold and is itself
processed, and the singleton-collapse shape is absent. -/
def processed (self : Nat) : SCPQuorumSet → Bool
  | ⟨t, vs, inners⟩ =>
    decide (self ∉ vs) && processedList self inners &&
      !(decide (t = 1) && decide (vs = []) && decide (inners.length = 1))
termination_by structural q => q

/-- processed over a list of inner sets, also requiring nonzero thresholds. -/
def processedList (self : Nat) : List SCPQuorumSet → Bool
  | [] => true
  | q :: qs =>
    decide (q.threshold ≠ 0) && processed self q && processedList self qs
termination_by structural qs => qs

end

/-! ## Structural induction principle for the nested tree -/

mutual

/-- Induction over a quorum-set tree: to prove P everywhere it suffices to
prove it at each node assuming it for every inner set. -/
theorem qsetInd (P : SCPQuorumSet → Prop)
    (h : ∀ t vs inners, (∀ q ∈ inners, P q) → P ⟨t, vs, inners⟩) :
    ∀ q, P q
  | ⟨t, vs, inners⟩ => h t vs inners (qsetIndList P h inners)
termination_by structural q => q

/-- Helper for qsetInd: P holds for every member of a list of trees. -/
theorem qsetIndList (P : SCPQuorumSet → Prop)
    (h : ∀ t vs inners, (∀ q ∈ inners, P q) → P ⟨t, vs, inners⟩) :
    ∀ l : List SCPQuorumSet, ∀ q ∈ l, P q
  | x :: xs, q, hq =>
    (List.mem_cons.mp hq).elim (fun e => e ▸ qsetInd P h x)
      (fun hx => qsetIndList P h xs q hx)
termination_by structural l => l

end

/-! ## Characterization of isQuorumSlice -/

theorem wfThresholdsList_iff (qs : List SCPQuorumSet) :
    wfThresholdsList qs = true ↔ ∀ q ∈ qs, wfThresholds q = true := by
  induction qs with
  | nil => simp [wfThresholdsList]
  | cons q qs ih => simp [wfThresholdsList, ih]

theorem thresholdsPosList_iff (qs : List SCPQuorumSet) :
    thresholdsPosList qs = true ↔ ∀ q ∈ qs, thresholdsPos q = true := by
  induction qs with
  | nil => simp [thresholdsPosList]
  | cons q qs ih => simp [thresholdsPosList, ih]

theorem wfThresholds_thresholdsPos : ∀ q, wfThresholds q = true → thresholdsPos q = true := by
  intro q
  induction q using qsetInd with
  | h t vs inners ih =>
    simp only [wfThresholds, thresholdsPos, Bool.and_eq_true, decide_eq_true_eq,
      wfThresholdsList_iff, thresholdsPosList_iff]
    rintro ⟨⟨h1, _⟩, hl⟩
    exact ⟨h1, fun q hq => ih q hq (hl q hq)⟩

theorem sliceValsLoop_spec (nodeSet : List Nat) :
    ∀ (vs : List Nat) (t : Nat), 1 ≤ t →
      sliceValsLoop nodeSet vs t =
        if t ≤ List.countP (fun v => decide (v ∈ nodeSet)) vs then none
        else some (t - List.countP (fun v => decide (v ∈ nodeSet)) vs) := by
  intro vs
  induction vs with
  | nil =>
    intro t ht
    simp only [sliceValsLoop, List.countP_nil]
    rw [if_neg (by omega), Nat.sub_zero]
  | cons v vs ih =>
    intro t ht
    by_cases hv : v ∈ nodeSet
    · have hvb : (decide (v ∈ nodeSet)) = true := decide_eq_true hv
      have hcount : List.countP (fun v => decide (v ∈ nodeSet)) (v :: vs)
          = List.countP (fun v => decide (v ∈ nodeSet)) vs + 1 := by
        simp [List.countP_cons, hvb]
      have hd : dec32 t = t - 1 := by rw [dec32, if_neg (by omega)]
      simp only [sliceValsLoop, if_pos hv, hd, hcount]
      by_cases h1 : t - 1 = 0
      · rw [if_pos h1, if_pos (by omega)]
      · rw [if_neg h1, ih (t - 1) (by omega)]
        split_ifs with h3 h4
        · rfl
        · exfalso
          omega
        · exfalso
          omega
        · congr 1
          omega
    · have hvb : (decide (v ∈ nodeSet)) = false := decide_eq_false hv
      have hcount : List.countP (fun v => decide (v ∈ nodeSet)) (v :: vs)
          = List.countP (fun v => decide (v ∈ nodeSet)) vs := by
        simp [List.countP_cons, hvb]
      simp only [sliceValsLoop, if_neg hv, hcount]
      exact ih t ht

theorem sliceInnersLoop_spec (nodeSet : List Nat) :
    ∀ (qs : List SCPQuorumSet) (t : Nat), 1 ≤ t →
      (sliceInnersLoop nodeSet qs t = true ↔
        t ≤ List.countP (fun q => isQuorumSliceInternal q nodeSet) qs) := by
  intro qs
  induction qs with
  | nil =>
    intro t ht
    simp only [sliceInnersLoop, List.countP_nil]
    constructor
    · intro h
      exact absurd h (by simp)
    · intro h
      omega
  | cons q qs ih =>
    intro t ht
    by_cases hq : isQuorumSliceInternal q nodeSet = true
    · have hcount : List.countP (fun q => isQuorumSliceInternal q nodeSet) (q :: qs)
          = List.countP (fun q => isQuorumSliceInternal q nodeSet) qs + 1 := by
        simp [List.countP_cons, hq]
      have hd : dec32 t = t - 1 := by rw [dec32, if_neg (by omega)]
      simp only [sliceInnersLoop, if_pos hq, hd, hcount]
      by_cases h1 : t - 1 = 0
      · rw [if_pos h1]
        simp only [true_iff]
        omega
      · rw [if_neg h1, ih (t - 1) (by omega)]
        omega
    · have hcount : List.countP (fun q => isQuorumSliceInternal q nodeSet) (q :: qs)
          = List.countP (fun q => isQuorumSliceInternal q nodeSet) qs := by
        simp [List.countP_cons, Bool.of_not_eq_true hq]
      simp only [sliceInnersLoop, if_neg hq, hcount]
      exact ih t ht

/-- The loop-based isQuorumSliceInternal counts: for a positive threshold it
succeeds iff at least threshold direct entries are satisfied. -/
theorem isQuorumSliceInternal_char (t : Nat) (vs : List Nat)
    (inners : List SCPQuorumSet) (S : List Nat) (ht : 1 ≤ t) :
    (isQuorumSliceInternal ⟨t, vs, inners⟩ S = true ↔
      t ≤ List.countP (fun v => decide (v ∈ S)) vs +
        List.countP (fun q => isQuorumSliceInternal q S) inners) := by
  rw [isQuorumSliceInternal, sliceValsLoop_spec S vs t ht]
  by_cases hc : t ≤ List.countP (fun v => decide (v ∈ S)) vs
  · rw [if_pos hc]
    simp only [true_iff]
    omega
  · rw [if_neg hc]
    have h1 : 1 ≤ t - List.countP (fun v => decide (v ∈ S)) vs := by omega
    rw [sliceInnersLoop_spec S inners _ h1]
    omega

/-- Two Booleans equal as soon as their truth conditions agree. -/
theorem boolEq_of_iff {a b : Bool} (h : a = true ↔ b = true) : a = b := by
  cases a <;> cases b <;> simp_all

theorem specSatisfiedCount_eq (qs : List SCPQuorumSet) (S : List Nat) :
    specSatisfiedCount qs S = List.countP (fun q => specSatisfied q S) qs := by
  induction qs with
  | nil => simp [specSatisfiedCount]
  | cons q qs ih =>
    rw [specSatisfiedCount, List.countP_cons, ih]
    by_cases hq : specSatisfied q S = true <;> (simp [hq]; try omega)

/-- The code-derived quorum-slice test agrees with the specification's
recursive satisfaction relation on every tree with positive thresholds. -/
theorem isQuorumSliceInternal_eq_specSatisfied :
    ∀ q, thresholdsPos q = true → ∀ S, isQuorumSliceInternal q S = specSatisfied q S := by
  intro q
  induction q using qsetInd with
  | h t vs inners ih =>
    intro hpos S
    rw [thresholdsPos, Bool.and_eq_true, decide_eq_true_eq, thresholdsPosList_iff] at hpos
    obtain ⟨ht, hlist⟩ := hpos
    apply boolEq_of_iff
    rw [isQuorumSliceInternal_char t vs inners S ht]
    have hcong : List.countP (fun q => isQuorumSliceInternal q S) inners
        = List.countP (fun q => specSatisfied q S) inners :=
      List.countP_congr (fun q hq => by rw [ih q hq (hlist q hq) S])
    rw [hcong]
    simp [specSatisfied, specSatisfiedCount_eq]

/-- Quorum-slice satisfaction is monotone in the node set (on trees with
positive thresholds). -/
theorem isQuorumSliceInternal_mono :
    ∀ q, thresholdsPos q = true → ∀ S S' : List Nat, (∀ x ∈ S, x ∈ S') →
      isQuorumSliceInternal q S = true → isQuorumSliceInternal q S' = true := by
  intro q
  induction q using qsetInd with
  | h t vs inners ih =>
    intro hpos S S' hsub hsat
    rw [thresholdsPos, Bool.and_eq_true, decide_eq_true_eq, thresholdsPosList_iff] at hpos
    obtain ⟨ht, hlist⟩ := hpos
    rw [isQuorumSliceInternal_char t vs inners S ht] at hsat
    rw [isQuorumSliceInternal_char t vs inners S' ht]
    have h1 : List.countP (fun v => decide (v ∈ S)) vs
        ≤ List.countP (fun v => decide (v ∈ S')) vs := by
      refine List.countP_mono_left (fun v _ hv => ?_)
      simp only [decide_eq_true_eq] at hv ⊢
      exact hsub v hv
    have h2 : List.countP (fun q => isQuorumSliceInternal q S) inners
        ≤ List.countP (fun q => isQuorumSliceInternal q S') inners :=
      List.countP_mono_left (fun q hq hsat' => ih q hq (hlist q hq) S S' hsub hsat')
    omega

/-! ## Characterization of isVBlocking -/

theorem vbValsLoop_spec (nodeSet : List Nat) :
    ∀ (vs : List Nat) (c : Int), 1 ≤ c →
      vbValsLoop nodeSet vs c =
        if c ≤ (List.countP (fun v => decide (v ∈ nodeSet)) vs : Int) then none
        else some (c - List.countP (fun v => decide (v ∈ nodeSet)) vs) := by
  intro vs
  induction vs with
  | nil =>
    intro c hc
    simp only [vbValsLoop, List.countP_nil]
    rw [if_neg (by push_cast; omega)]
    rw [show ((0 : Nat) : Int) = 0 by rfl, Int.sub_zero]
  | cons v vs ih =>
    intro c hc
    by_cases hv : v ∈ nodeSet
    · have hvb : (decide (v ∈ nodeSet)) = true := decide_eq_true hv
      have hcount : List.countP (fun v => decide (v ∈ nodeSet)) (v :: vs)
          = List.countP (fun v => decide (v ∈ nodeSet)) vs + 1 := by
        simp [List.countP_cons, hvb]
      simp only [vbValsLoop, if_pos hv, hcount]
      by_cases h1 : c - 1 ≤ 0
      · rw [if_pos h1, if_pos (by push_cast; omega)]
      · rw [if_neg h1, ih (c - 1) (by omega)]
        split_ifs with h3 h4 <;>
          first
            | rfl
            | (exfalso
               push_cast at h3 h4
               omega)
            | (congr 1
               push_cast
               omega)
    · have hvb : (decide (v ∈ nodeSet)) = false := decide_eq_false hv
      have hcount : List.countP (fun v => decide (v ∈ nodeSet)) (v :: vs)
          = List.countP (fun v => decide (v ∈ nodeSet)) vs := by
        simp [List.countP_cons, hvb]
      simp only [vbValsLoop, if_neg hv, hcount]
      exact ih c hc

theorem vbInnersLoop_spec (nodeSet : List Nat) :
    ∀ (qs : List SCPQuorumSet) (c : Int), 1 ≤ c →
      (vbInnersLoop nodeSet qs c = true ↔
        c ≤ (List.countP (fun q => isVBlockingInternal q nodeSet) qs : Int)) := by
  intro qs
  induction qs with
  | nil =>
    intro c hc
    simp only [vbInnersLoop, List.countP_nil]
    constructor
    · intro h
      exact absurd h (by simp)
    · intro h
      exfalso
      push_cast at h
      omega
  | cons q qs ih =>
    intro c hc
    by_cases hq : isVBlockingInternal q nodeSet = true
    · have hcount : List.countP (fun q => isVBlockingInternal q nodeSet) (q :: qs)
          = List.countP (fun q => isVBlockingInternal q nodeSet) qs + 1 := by
        simp [List.countP_cons, hq]
      simp only [vbInnersLoop, if_pos hq, hcount]
      by_cases h1 : c - 1 ≤ 0
      · rw [if_pos h1]
        simp only [true_iff]
        push_cast
        omega
      · rw [if_neg h1, ih (c - 1) (by omega)]
        push_cast
        omega
    · have hcount : List.countP (fun q => isVBlockingInternal q nodeSet) (q :: qs)
          = List.countP (fun q => isVBlockingInternal q nodeSet) qs := by
        simp [List.countP_cons, hq]
      simp only [vbInnersLoop, if_neg hq, hcount]
      exact ih c hc

/-- The loop-based isVBlockingInternal counts: for a threshold in the
well-formed range it succeeds iff at least totEntries + 1 - threshold direct
entries are blocked. -/
theorem isVBlockingInternal_char (t : Nat) (vs : List Nat)
    (inners : List SCPQuorumSet) (S : List Nat) (ht : 1 ≤ t)
    (htn : t ≤ vs.length + inners.length) :
    (isVBlockingInternal ⟨t, vs, inners⟩ S = true ↔
      vs.length + inners.length + 1 ≤
        t + List.countP (fun v => decide (v ∈ S)) vs +
          List.countP (fun q => isVBlockingInternal q S) inners) := by
  have hltb : (1 : Int) ≤ (1 + vs.length + inners.length : Int) - t := by
    omega
  simp only [isVBlockingInternal, if_neg (show ¬ t = 0 by omega)]
  rw [vbValsLoop_spec S vs _ hltb]
  split_ifs with hc
  · simp only [true_iff]
    push_cast at hc
    omega
  · have h1 : (1 : Int) ≤ (1 + vs.length + inners.length : Int) - t -
        List.countP (fun v => decide (v ∈ S)) vs := by
      push_cast at hc ⊢
      omega
    rw [vbInnersLoop_spec S inners _ h1]
    omega

/-- V-blocking is monotone in the node set (on well-formed thresholds). -/
theorem isVBlockingInternal_mono :
    ∀ q, wfThresholds q = true → ∀ S S' : List Nat, (∀ x ∈ S, x ∈ S') →
      isVBlockingInternal q S = true → isVBlockingInternal q S' = true := by
  intro q
  induction q using qsetInd with
  | h t vs inners ih =>
    intro hwf S S' hsub hvb
    rw [wfThresholds, Bool.and_eq_true, Bool.and_eq_true, decide_eq_true_eq,
      decide_eq_true_eq, wfThresholdsList_iff] at hwf
    obtain ⟨⟨ht, htn⟩, hlist⟩ := hwf
    rw [isVBlockingInternal_char t vs inners S ht htn] at hvb
    rw [isVBlockingInternal_char t vs inners S' ht htn]
    have h1 : List.countP (fun v => decide (v ∈ S)) vs
        ≤ List.countP (fun v => decide (v ∈ S')) vs := by
      refine List.countP_mono_left (fun v _ hv => ?_)
      simp only [decide_eq_true_eq] at hv ⊢
      exact hsub v hv
    have h2 : List.countP (fun q => isVBlockingInternal q S) inners
        ≤ List.countP (fun q => isVBlockingInternal q S') inners :=
      List.countP_mono_left (fun q hq hvb' => ih q hq (hlist q hq) S S' hsub hvb')
    omega

/-! ## V-blocking duality -/

theorem countP_bool_compl (p : α → Bool) (l : List α) :
    List.countP (fun a => !p a) l + List.countP p l = l.length := by
  induction l with
  | nil => simp
  | cons a l ih =>
    cases ha : p a <;> simp [List.countP_cons, ha] <;> omega

theorem mem_sliceWitnessList (S : List Nat) :
    ∀ (l : List SCPQuorumSet) (x : Nat),
      x ∈ sliceWitnessList S l ↔ ∃ q ∈ l, x ∈ sliceWitness S q := by
  intro l
  induction l with
  | nil => simp [sliceWitnessList]
  | cons q qs ih =>
    intro x
    simp [sliceWitnessList, ih]

theorem mem_nodesOfList :
    ∀ (l : List SCPQuorumSet) (x : Nat),
      x ∈ nodesOfList l ↔ ∃ q ∈ l, x ∈ nodesOf q := by
  intro l
  induction l with
  | nil => simp [nodesOfList]
  | cons q qs ih =>
    intro x
    simp [nodesOfList, ih]

theorem sliceWitness_disjoint :
    ∀ q (S : List Nat), ∀ x ∈ sliceWitness S q, x ∉ S := by
  intro q
  induction q using qsetInd with
  | h t vs inners ih =>
    intro S x hx
    rw [sliceWitness] at hx
    rcases List.mem_append.mp hx with h | h
    · have := List.of_mem_filter h
      simpa using this
    · obtain ⟨q, hq, hxq⟩ := (mem_sliceWitnessList S inners x).mp h
      exact ih q hq S x hxq

/-- If S is not v-blocking for a well-formed tree, the constructed witness is
a quorum slice of the tree. -/
theorem sliceWitness_satisfies :
    ∀ q, wfThresholds q = true → ∀ S : List Nat,
      isVBlockingInternal q S = false →
      isQuorumSliceInternal q (sliceWitness S q) = true := by
  intro q
  induction q using qsetInd with
  | h t vs inners ih =>
    intro hwf S hvb
    rw [wfThresholds, Bool.and_eq_true, Bool.and_eq_true, decide_eq_true_eq,
      decide_eq_true_eq, wfThresholdsList_iff] at hwf
    obtain ⟨⟨ht, htn⟩, hlist⟩ := hwf
    have hvb' : ¬(isVBlockingInternal ⟨t, vs, inners⟩ S = true) := by
      simp [hvb]
    rw [isVBlockingInternal_char t vs inners S ht htn] at hvb'
    rw [isQuorumSliceInternal_char t vs inners _ ht]
    have hW : sliceWitness S ⟨t, vs, inners⟩
        = vs.filter (fun v => decide (v ∉ S)) ++ sliceWitnessList S inners := by
      rw [sliceWitness]
    have h1 : List.countP (fun v => decide (v ∉ S)) vs
        ≤ List.countP (fun v => decide (v ∈ sliceWitness S ⟨t, vs, inners⟩)) vs := by
      refine List.countP_mono_left (fun v hv hvS => ?_)
      simp only [decide_eq_true_eq] at hvS ⊢
      rw [hW]
      exact List.mem_append_left _ (List.mem_filter.mpr ⟨hv, by simpa using hvS⟩)
    have h2 : List.countP (fun q => !isVBlockingInternal q S) inners
        ≤ List.countP (fun q => isQuorumSliceInternal q (sliceWitness S ⟨t, vs, inners⟩))
            inners := by
      refine List.countP_mono_left (fun q hq hqS => ?_)
      have hqvb : isVBlockingInternal q S = false := by
        simpa using hqS
      have hslice := ih q hq (hlist q hq) S hqvb
      refine isQuorumSliceInternal_mono q
        (wfThresholds_thresholdsPos q (hlist q hq)) _ _ ?_ hslice
      intro x hx
      rw [hW]
      exact List.mem_append_right _ ((mem_sliceWitnessList S inners x).mpr ⟨q, hq, hx⟩)
    have hc1 : List.countP (fun v => decide (v ∉ S)) vs
        + List.countP (fun v => decide (v ∈ S)) vs = vs.length := by
      have := countP_bool_compl (fun v => decide (v ∈ S)) vs
      calc List.countP (fun v => decide (v ∉ S)) vs
          + List.countP (fun v => decide (v ∈ S)) vs
      _ = List.countP (fun v => !decide (v ∈ S)) vs
          + List.countP (fun v => decide (v ∈ S)) vs := by
        congr 1
        exact List.countP_congr (fun v _ => by simp)
      _ = vs.length := this
    have hc2 : List.countP (fun q => !isVBlockingInternal q S) inners
        + List.countP (fun q => isVBlockingInternal q S) inners = inners.length :=
      countP_bool_compl _ inners
    omega

/-- The duality at the heart of FBA: on well-formed trees, S is v-blocking
iff no quorum slice avoids S. -/
theorem vb_duality :
    ∀ q, wfThresholds q = true → ∀ S : List Nat,
      (isVBlockingInternal q S = true ↔
        ¬ ∃ T : List Nat, (∀ x ∈ T, x ∉ S) ∧ isQuorumSliceInternal q T = true) := by
  intro q
  induction q using qsetInd with
  | h t vs inners ih =>
    intro hwf S
    have hwf' := hwf
    rw [wfThresholds, Bool.and_eq_true, Bool.and_eq_true, decide_eq_true_eq,
      decide_eq_true_eq, wfThresholdsList_iff] at hwf'
    obtain ⟨⟨ht, htn⟩, hlist⟩ := hwf'
    constructor
    · rintro hvb ⟨T, hdisj, hslice⟩
      rw [isVBlockingInternal_char t vs inners S ht htn] at hvb
      rw [isQuorumSliceInternal_char t vs inners T ht] at hslice
      have h1 : List.countP (fun v => decide (v ∈ T)) vs
          ≤ List.countP (fun v => decide (v ∉ S)) vs := by
        refine List.countP_mono_left (fun v _ hv => ?_)
        simp only [decide_eq_true_eq] at hv ⊢
        exact hdisj v hv
      have h2 : List.countP (fun q => isQuorumSliceInternal q T) inners
          ≤ List.countP (fun q => !isVBlockingInternal q S) inners := by
        refine List.countP_mono_left (fun q hq hqT => ?_)
        have : ¬(isVBlockingInternal q S = true) := by
          rw [ih q hq (hlist q hq) S]
          intro hno
          exact hno ⟨T, hdisj, hqT⟩
        simpa using this
      have hc1 : List.countP (fun v => decide (v ∉ S)) vs
          + List.countP (fun v => decide (v ∈ S)) vs = vs.length := by
        have := countP_bool_compl (fun v => decide (v ∈ S)) vs
        calc List.countP (fun v => decide (v ∉ S)) vs
            + List.countP (fun v => decide (v ∈ S)) vs
        _ = List.countP (fun v => !decide (v ∈ S)) vs
            + List.countP (fun v => decide (v ∈ S)) vs := by
          congr 1
          exact List.countP_congr (fun v _ => by simp)
        _ = vs.length := this
      have hc2 : List.countP (fun q => !isVBlockingInternal q S) inners
          + List.countP (fun q => isVBlockingInternal q S) inners = inners.length :=
        countP_bool_compl _ inners
      omega
    · intro hno
      by_contra hvb
      have hvbf : isVBlockingInternal ⟨t, vs, inners⟩ S = false :=
        Bool.not_eq_true _ ▸ (by simpa using hvb)
      have hsat := sliceWitness_satisfies ⟨t, vs, inners⟩ hwf S hvbf
      exact hno ⟨sliceWitness S ⟨t, vs, inners⟩,
        sliceWitness_disjoint ⟨t, vs, inners⟩ S, hsat⟩

/-! ## Characterization of isQuorumSetSane -/

theorem saneValsLoop_spec :
    ∀ (vs known : List Nat),
      ((saneValsLoop vs known).1 = true ↔ vs.Nodup ∧ ∀ v ∈ vs, v ∉ known) ∧
      ((saneValsLoop vs known).1 = true →
        (saneValsLoop vs known).2 = vs.reverse ++ known) := by
  intro vs
  induction vs with
  | nil =>
    intro known
    simp [saneValsLoop]
  | cons v vs ih =>
    intro known
    by_cases hv : v ∈ known
    · refine ⟨?_, ?_⟩
      · simp only [saneValsLoop, if_pos hv]
        constructor
        · intro h
          exact absurd h (by simp)
        · rintro ⟨_, hall⟩
          exact absurd hv (hall v (by simp))
      · intro h
        rw [saneValsLoop, if_pos hv] at h
        exact absurd h (by simp)
    · have := ih (v :: known)
      refine ⟨?_, ?_⟩
      · rw [saneValsLoop, if_neg hv, this.1]
        simp only [List.nodup_cons, List.mem_cons, not_or]
        constructor
        · rintro ⟨hnd, hall⟩
          have hvvs : v ∉ vs := by
            intro hmem
            exact (hall v hmem).1 rfl
          refine ⟨⟨hvvs, hnd⟩, ?_⟩
          intro w hw
          rcases hw with hw | hw
          · exact hw ▸ hv
          · exact (hall w hw).2
        · rintro ⟨⟨hvvs, hnd⟩, hall⟩
          refine ⟨hnd, fun w hw => ⟨?_, hall w (Or.inr hw)⟩⟩
          intro he
          exact hvvs (he ▸ hw)
      · intro h
        rw [saneValsLoop, if_neg hv] at h ⊢
        rw [(ih (v :: known)).2 h]
        simp

theorem saneInnersLoop_spec :
    ∀ (qs : List SCPQuorumSet),
      (∀ q ∈ qs, ∀ known : List Nat,
        ((isQuorumSetSaneInternal q known).1 = true ↔
          (wfThresholds q = true ∧ (nodesOf q).Nodup ∧ ∀ v ∈ nodesOf q, v ∉ known)) ∧
        ((isQuorumSetSaneInternal q known).1 = true →
          (isQuorumSetSaneInternal q known).2 = (nodesOf q).reverse ++ known)) →
      ∀ known : List Nat,
        ((saneInnersLoop qs known).1 = true ↔
          (wfThresholdsList qs = true ∧ (nodesOfList qs).Nodup ∧
            ∀ v ∈ nodesOfList qs, v ∉ known)) ∧
        ((saneInnersLoop qs known).1 = true →
          (saneInnersLoop qs known).2 = (nodesOfList qs).reverse ++ known) := by
  intro qs
  induction qs with
  | nil =>
    intro _ known
    simp [saneInnersLoop, wfThresholdsList, nodesOfList]
  | cons q qs ih =>
    intro hm known
    have hq := hm q (by simp) known
    have ihs := ih (fun p hp => hm p (by simp [hp]))
    have hexp : saneInnersLoop (q :: qs) known =
        (match isQuorumSetSaneInternal q known with
          | (false, known') => (false, known')
          | (true, known') => saneInnersLoop qs known') := by
      rw [saneInnersLoop]
    rcases hfst : (isQuorumSetSaneInternal q known) with ⟨b, known'⟩
    cases b
    · have hres : saneInnersLoop (q :: qs) known = (false, known') := by
        rw [hexp, hfst]
      refine ⟨?_, ?_⟩
      · rw [hres]
        simp only [wfThresholdsList, Bool.and_eq_true, wfThresholdsList_iff,
          nodesOfList, List.nodup_append, List.mem_append]
        constructor
        · intro h
          exact absurd h (by simp)
        · rintro ⟨⟨hwfq, _⟩, ⟨hnd1, _, _⟩, hfresh⟩
          have : (isQuorumSetSaneInternal q known).1 = true := by
            rw [hq.1]
            exact ⟨hwfq, hnd1, fun v hv => hfresh v (Or.inl hv)⟩
          rw [hfst] at this
          exact absurd this (by simp)
      · intro h
        rw [hres] at h
        exact absurd h (by simp)
    · have hres : saneInnersLoop (q :: qs) known = saneInnersLoop qs known' := by
        rw [hexp, hfst]
      have hqt : (isQuorumSetSaneInternal q known).1 = true := by rw [hfst]
      have hknown' : known' = (nodesOf q).reverse ++ known := by
        have := hq.2 hqt
        rw [hfst] at this
        exact this
      obtain ⟨hwfq, hndq, hfreshq⟩ := hq.1.mp hqt
      subst hknown'
      refine ⟨?_, ?_⟩
      · rw [hres, (ihs _).1]
        simp only [wfThresholdsList, Bool.and_eq_true, nodesOfList,
          List.nodup_append, List.mem_append, List.mem_reverse, not_or]
        constructor
        · rintro ⟨hwfqs, hndqs, hfresh⟩
          refine ⟨⟨hwfq, hwfqs⟩, ⟨hndq, hndqs, ?_⟩, ?_⟩
          · intro a ha hb
            exact (hfresh a hb).1 ha
          · intro v hv
            rcases hv with hv | hv
            · exact hfreshq v hv
            · exact (hfresh v hv).2
        · rintro ⟨⟨_, hwfqs⟩, ⟨_, hndqs, hdisj⟩, hfresh⟩
          refine ⟨hwfqs, hndqs, ?_⟩
          intro v hv
          exact ⟨fun hvq => hdisj hvq hv, hfresh v (Or.inr hv)⟩
      · intro h
        rw [hres] at h ⊢
        rw [(ihs _).2 h]
        simp [nodesOfList]

theorem saneInternal_spec :
    ∀ q (known : List Nat),
      ((isQuorumSetSaneInternal q known).1 = true ↔
        (wfThresholds q = true ∧ (nodesOf q).Nodup ∧ ∀ v ∈ nodesOf q, v ∉ known)) ∧
      ((isQuorumSetSaneInternal q known).1 = true →
        (isQuorumSetSaneInternal q known).2 = (nodesOf q).reverse ++ known) := by
  intro q
  induction q using qsetInd with
  | h t vs inners ih =>
    intro known
    by_cases hrange : 1 ≤ t ∧ t ≤ vs.length + inners.length
    · have hexp : isQuorumSetSaneInternal ⟨t, vs, inners⟩ known =
          (match saneValsLoop vs known with
            | (false, known') => (false, known')
            | (true, known') => saneInnersLoop inners known') := by
        rw [isQuorumSetSaneInternal, if_pos hrange]
      rcases hv : saneValsLoop vs known with ⟨b, known'⟩
      cases b
      · have hres : isQuorumSetSaneInternal ⟨t, vs, inners⟩ known = (false, known') := by
          rw [hexp, hv]
        refine ⟨?_, ?_⟩
        · rw [hres]
          simp only [nodesOf, List.nodup_append, List.mem_append]
          constructor
          · intro h
            exact absurd h (by simp)
          · rintro ⟨_, ⟨hnd1, _, _⟩, hfresh⟩
            have : (saneValsLoop vs known).1 = true := by
              rw [(saneValsLoop_spec vs known).1]
              exact ⟨hnd1, fun v hvv => hfresh v (Or.inl hvv)⟩
            rw [hv] at this
            exact absurd this (by simp)
        · intro h
          rw [hres] at h
          exact absurd h (by simp)
      · have hres : isQuorumSetSaneInternal ⟨t, vs, inners⟩ known
            = saneInnersLoop inners known' := by
          rw [hexp, hv]
        have hvt : (saneValsLoop vs known).1 = true := by rw [hv]
        have hknown' : known' = vs.reverse ++ known := by
          have := (saneValsLoop_spec vs known).2 hvt
          rw [hv] at this
          exact this
        obtain ⟨hndv, hfreshv⟩ := (saneValsLoop_spec vs known).1.mp hvt
        subst hknown'
        have hinner := saneInnersLoop_spec inners ih (vs.reverse ++ known)
        refine ⟨?_, ?_⟩
        · rw [hres, hinner.1]
          simp only [wfThresholds, Bool.and_eq_true, decide_eq_true_eq, nodesOf,
            List.nodup_append, List.mem_append, List.mem_reverse, not_or]
          constructor
          · rintro ⟨hwfl, hnd2, hfresh⟩
            refine ⟨⟨⟨hrange.1, hrange.2⟩, hwfl⟩, ⟨hndv, hnd2, ?_⟩, ?_⟩
            · intro a ha hb
              exact (hfresh a hb).1 ha
            · intro v hvv
              rcases hvv with hvv | hvv
              · exact hfreshv v hvv
              · exact (hfresh v hvv).2
          · rintro ⟨⟨_, hwfl⟩, ⟨_, hnd2, hdisj⟩, hfresh⟩
            refine ⟨hwfl, hnd2, ?_⟩
            intro v hvv
            exact ⟨fun hvq => hdisj hvq hvv, hfresh v (Or.inr hvv)⟩
        · intro h
          rw [hres] at h ⊢
          rw [hinner.2 h]
          simp [nodesOf]
    · refine ⟨?_, ?_⟩
      · rw [isQuorumSetSaneInternal, if_neg hrange]
        simp only [wfThresholds, Bool.and_eq_true, decide_eq_true_eq]
        constructor
        · intro h
          exact absurd h (by simp)
        · rintro ⟨⟨⟨h1, h2⟩, _⟩, _⟩
          exact absurd ⟨h1, h2⟩ hrange
      · intro h
        rw [isQuorumSetSaneInternal, if_neg hrange] at h
        exact absurd h (by simp)

/-- On the empty accumulator, the internal sanity check succeeds exactly on
the spec well-formed trees. -/
theorem saneInternal_empty (q : SCPQuorumSet) :
    (isQuorumSetSaneInternal q []).1 = true ↔ wellFormedQS q = true := by
  rw [(saneInternal_spec q []).1, wellFormedQS, Bool.and_eq_true, decide_eq_true_eq]
  simp

/-- On success, the accumulated set is exactly the nodes of the tree. -/
theorem saneInternal_empty_snd (q : SCPQuorumSet)
    (h : (isQuorumSetSaneInternal q []).1 = true) :
    (isQuorumSetSaneInternal q []).2 = (nodesOf q).reverse := by
  have := (saneInternal_spec q []).2 h
  simpa using this

/-! ## adjustQSet lemmas -/

/-- Branch-explicit form of adjustQSetHelper. -/
theorem adjustQSetHelper_unfold (self t : Nat) (vs : List Nat)
    (inners : List SCPQuorumSet) :
    adjustQSetHelper self ⟨t, vs, inners⟩ =
      (if (adjustInnersLoop self inners t).1.length = 1 ∧
          (removeSelfLoop self vs (adjustInnersLoop self inners t).2).1 = [] ∧
          (removeSelfLoop self vs (adjustInnersLoop self inners t).2).2 = 1
       then (adjustInnersLoop self inners t).1.headI
       else ⟨(removeSelfLoop self vs (adjustInnersLoop self inners t).2).2,
             (removeSelfLoop self vs (adjustInnersLoop self inners t).2).1,
             (adjustInnersLoop self inners t).1⟩) := by
  rcases hil : adjustInnersLoop self inners t with ⟨inners', t1⟩
  rcases hrl : removeSelfLoop self vs t1 with ⟨vs', t2⟩
  simp only [adjustQSetHelper, hil, hrl]
  rcases inners' with _ | ⟨q0, _ | ⟨q1, rest⟩⟩ <;>
    rcases vs' with _ | ⟨v0, vrest⟩ <;>
    rcases t2 with _ | ⟨_ | t2'⟩ <;>
    simp [List.headI]

theorem removeSelfLoop_fst (self : Nat) :
    ∀ (vs : List Nat) (t : Nat),
      (removeSelfLoop self vs t).1 = vs.filter (fun v => decide (¬ v = self)) := by
  intro vs
  induction vs with
  | nil => intro t; simp [removeSelfLoop]
  | cons v vs ih =>
    intro t
    by_cases he : v = self
    · simp only [removeSelfLoop, if_pos he, List.filter_cons]
      rw [ih]
      simp [he]
    · rcases hl : removeSelfLoop self vs t with ⟨vs', t'⟩
      simp only [removeSelfLoop, if_neg he, hl, List.filter_cons]
      have := ih t
      rw [hl] at this
      simp only at this
      simp [he, this]

theorem removeSelfLoop_id (self : Nat) :
    ∀ (vs : List Nat) (t : Nat), self ∉ vs → removeSelfLoop self vs t = (vs, t) := by
  intro vs
  induction vs with
  | nil => intro t _; rw [removeSelfLoop]
  | cons v vs ih =>
    intro t hm
    have hv : ¬ v = self := fun he => hm (by simp [he])
    have hvs : self ∉ vs := fun hmem => hm (by simp [hmem])
    rw [removeSelfLoop, if_neg hv, ih t hvs]

theorem adjustInnersLoop_mem (self : Nat) :
    ∀ (qs : List SCPQuorumSet) (t : Nat),
      ∀ q' ∈ (adjustInnersLoop self qs t).1,
        q'.threshold ≠ 0 ∧ ∃ q ∈ qs, q' = adjustQSetHelper self q := by
  intro qs
  induction qs with
  | nil => intro t q' hq'; simp [adjustInnersLoop] at hq'
  | cons q qs ih =>
    intro t q' hq'
    by_cases h0 : (adjustQSetHelper self q).threshold = 0
    · rw [adjustInnersLoop, if_pos h0] at hq'
      obtain ⟨hne, p, hp, he⟩ := ih _ q' hq'
      exact ⟨hne, p, by simp [hp], he⟩
    · rcases hl : adjustInnersLoop self qs t with ⟨qs', t'⟩
      rw [adjustInnersLoop, if_neg h0, hl] at hq'
      simp only [List.mem_cons] at hq'
      rcases hq' with he | hmem
      · exact ⟨by rw [he]; exact h0, q, by simp, he⟩
      · have := ih t q' (by rw [hl]; exact hmem)
        obtain ⟨hne, p, hp, he⟩ := this
        exact ⟨hne, p, by simp [hp], he⟩

theorem adjustInnersLoop_id (self : Nat) :
    ∀ (qs : List SCPQuorumSet) (t : Nat),
      (∀ q ∈ qs, adjustQSetHelper self q = q ∧ q.threshold ≠ 0) →
      adjustInnersLoop self qs t = (qs, t) := by
  intro qs
  induction qs with
  | nil => intro t _; rw [adjustInnersLoop]
  | cons q qs ih =>
    intro t hall
    obtain ⟨hfix, hne⟩ := hall q (by simp)
    have h0 : ¬ (adjustQSetHelper self q).threshold = 0 := by rw [hfix]; exact hne
    rw [adjustInnersLoop, if_neg h0, ih t (fun p hp => hall p (by simp [hp])), hfix]

theorem processedList_iff (self : Nat) :
    ∀ l : List SCPQuorumSet,
      processedList self l = true ↔
        ∀ q ∈ l, q.threshold ≠ 0 ∧ processed self q = true := by
  intro l
  induction l with
  | nil => simp [processedList]
  | cons q qs ih => simp [processedList, ih]

/-- The canonicalizer's helper always yields a processed tree. -/
theorem adjustQSetHelper_processed (self : Nat) :
    ∀ q, processed self (adjustQSetHelper self q) = true := by
  intro q
  induction q using qsetInd with
  | h t vs inners ih =>
    rw [adjustQSetHelper_unfold]
    split_ifs with hc
    · obtain ⟨hlen, _, _⟩ := hc
      rcases hi : (adjustInnersLoop self inners t).1 with _ | ⟨q0, rest⟩
      · rw [hi] at hlen
        simp at hlen
      · rw [hi] at hlen
        simp at hlen
        have hq0 : q0 ∈ (adjustInnersLoop self inners t).1 := by simp [hi]
        obtain ⟨_, p, hp, he⟩ := adjustInnersLoop_mem self inners t q0 hq0
        have hhead : (q0 :: rest).headI = q0 := rfl
        rw [hhead, he]
        exact ih p hp
    · rw [processed, Bool.and_eq_true, Bool.and_eq_true]
      refine ⟨⟨?_, ?_⟩, ?_⟩
      · rw [removeSelfLoop_fst]
        simp only [decide_eq_true_eq]
        intro hmem
        have := List.of_mem_filter hmem
        simp at this
      · rw [processedList_iff]
        intro q' hq'
        obtain ⟨hne, p, hp, he⟩ := adjustInnersLoop_mem self inners t q' hq'
        exact ⟨hne, he ▸ ih p hp⟩
      · simp only [Bool.not_eq_eq_eq_not, Bool.not_true, Bool.and_eq_false_iff]
        by_contra hsh
        simp only [Bool.and_eq_false_iff, not_or] at hsh
        obtain ⟨hsh1, hsh3⟩ := hsh
        simp only [Bool.and_eq_false_iff, not_or, decide_eq_false_iff_not,
          Decidable.not_not] at hsh1 hsh3
        exact hc ⟨by simpa using hsh3, hsh1.2, hsh1.1⟩

/-- A processed tree is a fixed point of the canonicalizer's helper. -/
theorem adjustQSetHelper_id (self : Nat) :
    ∀ q, processed self q = true → adjustQSetHelper self q = q := by
  intro q
  induction q using qsetInd with
  | h t vs inners ih =>
    intro hp
    rw [processed, Bool.and_eq_true, Bool.and_eq_true] at hp
    obtain ⟨⟨hself, hpl⟩, hshape⟩ := hp
    rw [processedList_iff] at hpl
    have hloop : adjustInnersLoop self inners t = (inners, t) :=
      adjustInnersLoop_id self inners t
        (fun q hq => ⟨ih q hq (hpl q hq).2, (hpl q hq).1⟩)
    have hrem : removeSelfLoop self vs t = (vs, t) :=
      removeSelfLoop_id self vs t (by simpa using hself)
    rw [adjustQSetHelper_unfold, hloop]
    simp only [hrem]
    rw [if_neg]
    intro ⟨h1, h2, h3⟩
    rw [Bool.not_eq_eq_eq_not, Bool.not_true, Bool.and_eq_false_iff,
      Bool.and_eq_false_iff] at hshape
    rcases hshape with (h | h) | h
    · simp at h
      exact h h3
    · simp at h
      exact h h2
    · simp at h
      exact h h1

/-- The canonicalizer's helper removes every occurrence of self. -/
theorem adjustQSetHelper_self_not_mem (self : Nat) :
    ∀ q, self ∉ nodesOf (adjustQSetHelper self q) := by
  intro q
  induction q using qsetInd with
  | h t vs inners ih =>
    rw [adjustQSetHelper_unfold]
    split_ifs with hc
    · obtain ⟨hlen, _, _⟩ := hc
      rcases hi : (adjustInnersLoop self inners t).1 with _ | ⟨q0, rest⟩
      · rw [hi] at hlen
        simp at hlen
      · rw [hi] at hlen
        simp at hlen
        have hq0 : q0 ∈ (adjustInnersLoop self inners t).1 := by simp [hi]
        obtain ⟨_, p, hp, he⟩ := adjustInnersLoop_mem self inners t q0 hq0
        have hhead : (q0 :: rest).headI = q0 := rfl
        rw [hhead, he]
        exact ih p hp
    · rw [nodesOf]
      intro hmem
      rcases List.mem_append.mp hmem with h | h
      · rw [removeSelfLoop_fst] at h
        have := List.of_mem_filter h
        simp at this
      · obtain ⟨q', hq', hmem'⟩ := (mem_nodesOfList _ self).mp h
        obtain ⟨_, p, hp, he⟩ := adjustInnersLoop_mem self inners t q' hq'
        exact ih p hp (he ▸ hmem')

/-! ## getNodeWeight lemmas -/

theorem weightInnersLoop_zero (nid n d : Nat) :
    ∀ qs : List SCPQuorumSet,
      (∀ q ∈ qs, getNodeWeight nid q = 0) → weightInnersLoop nid n d qs = 0 := by
  intro qs
  induction qs with
  | nil => intro _; rw [weightInnersLoop]
  | cons q qs ih =>
    intro hall
    have h0 : getNodeWeight nid q = 0 := hall q (by simp)
    rw [weightInnersLoop]
    simp only [h0]
    rw [if_neg (by simp)]
    exact ih (fun p hp => hall p (by simp [hp]))

/-- A node absent from the tree has weight 0. -/
theorem getNodeWeight_absent :
    ∀ q (nid : Nat), nid ∉ nodesOf q → getNodeWeight nid q = 0 := by
  intro q
  induction q using qsetInd with
  | h t vs inners ih =>
    intro nid hmem
    rw [nodesOf] at hmem
    simp only [List.mem_append, not_or] at hmem
    obtain ⟨hv, hi⟩ := hmem
    rw [getNodeWeight, if_neg hv]
    refine weightInnersLoop_zero nid t _ inners (fun q hq => ih q hq nid ?_)
    intro hmem'
    exact hi ((mem_nodesOfList inners nid).mpr ⟨q, hq, hmem'⟩)

/-! ## isQuorum loop lemmas -/

theorem quorumRounds_le (qfunN : Nat → SCPQuorumSet) :
    ∀ (n : Nat) (pNodes : List Nat), pNodes.length ≤ n →
      quorumRounds qfunN pNodes ≤ pNodes.length + 1 := by
  intro n
  induction n with
  | zero =>
    intro p hp
    have hle : (quorumFilterStep qfunN p).length ≤ p.length := List.length_filter_le _ _
    rw [quorumRounds, if_pos (by omega)]
    omega
  | succ n ih =>
    intro p hp
    have hle : (quorumFilterStep qfunN p).length ≤ p.length := List.length_filter_le _ _
    by_cases h : (quorumFilterStep qfunN p).length = p.length
    · rw [quorumRounds, if_pos h]
      omega
    · rw [quorumRounds, if_neg h]
      have := ih (quorumFilterStep qfunN p) (by omega)
      omega

/-! ## findClosestVBlocking lemmas -/

theorem mem_insertBySize (v : List Nat) :
    ∀ (l : List (List Nat)) (w : List Nat), w ∈ insertBySize v l ↔ w = v ∨ w ∈ l := by
  intro l
  induction l with
  | nil => simp [insertBySize]
  | cons x xs ih =>
    intro w
    rw [insertBySize]
    split_ifs with h
    · simp [List.mem_cons]
    · simp only [List.mem_cons, ih]
      tauto

theorem insertBySize_perm (v : List Nat) :
    ∀ l : List (List Nat), (insertBySize v l).Perm (v :: l) := by
  intro l
  induction l with
  | nil => simp [insertBySize]
  | cons x xs ih =>
    rw [insertBySize]
    split_ifs with h
    · exact List.Perm.refl _
    · exact (ih.cons x).trans (List.Perm.swap v x xs)

theorem takeWitnesses_eq :
    ∀ (n : Nat) (ws : List (List Nat)), takeWitnesses n ws = (ws.take n).flatten := by
  intro n
  induction n with
  | zero =>
    intro ws
    rw [takeWitnesses]
    simp
  | succ n ih =>
    intro ws
    cases ws with
    | nil =>
      rw [takeWitnesses]
      simp
    | cons w ws => rw [takeWitnesses, List.take_succ_cons, List.flatten_cons, ih]

theorem fcvbValsLoop_spec (nodes : List Nat) :
    ∀ (vs : List Nat) (ltb : Nat) (res : List Nat), 1 ≤ ltb →
      fcvbValsLoop nodes vs ltb res =
        if ltb ≤ List.countP (fun v => decide (v ∉ nodes)) vs then none
        else some (ltb - List.countP (fun v => decide (v ∉ nodes)) vs,
          res ++ vs.filter (fun v => decide (v ∈ nodes))) := by
  intro vs
  induction vs with
  | nil =>
    intro ltb res h
    simp only [fcvbValsLoop, List.countP_nil, List.filter_nil, List.append_nil]
    rw [if_neg (by omega), Nat.sub_zero]
  | cons v vs ih =>
    intro ltb res h
    by_cases hv : v ∈ nodes
    · have hd : (decide (v ∉ nodes)) = false := by simp [hv]
      have hf : (decide (v ∈ nodes)) = true := by simp [hv]
      have hc : List.countP (fun v => decide (v ∉ nodes)) (v :: vs)
          = List.countP (fun v => decide (v ∉ nodes)) vs := by
        simp [List.countP_cons, hd, hv]
      have hfc : List.filter (fun v => decide (v ∈ nodes)) (v :: vs)
          = v :: List.filter (fun v => decide (v ∈ nodes)) vs := by
        simp [List.filter_cons, hf, hv]
      rw [fcvbValsLoop, if_pos hv, ih ltb (res ++ [v]) h, hc, hfc,
        List.append_assoc, List.singleton_append]
    · have hd : (decide (v ∉ nodes)) = true := by simp [hv]
      have hf : (decide (v ∈ nodes)) = false := by simp [hv]
      have hc : List.countP (fun v => decide (v ∉ nodes)) (v :: vs)
          = List.countP (fun v => decide (v ∉ nodes)) vs + 1 := by
        simp [List.countP_cons, hd, hv]
      have hfc : List.filter (fun v => decide (v ∈ nodes)) (v :: vs)
          = List.filter (fun v => decide (v ∈ nodes)) vs := by
        simp [List.filter_cons, hf, hv]
      rw [fcvbValsLoop, if_neg hv, hc, hfc]
      by_cases h1 : ltb - 1 = 0
      · rw [if_pos h1, if_pos (by omega)]
      · rw [if_neg h1, ih (ltb - 1) res (by omega)]
        split_ifs with h3 h4 <;>
          first
            | rfl
            | (exfalso; omega)
            | (simp only [Option.some.injEq, Prod.mk.injEq, and_true]
               omega)

theorem fcvbInnersLoop_spec (nodes : List Nat) :
    ∀ (qs : List SCPQuorumSet) (ltb : Nat) (acc : List (List Nat)), 1 ≤ ltb →
      (fcvbInnersLoop nodes qs ltb acc = none ↔
        ltb ≤ List.countP
          (fun q => decide ((findClosestVBlocking q nodes).length = 0)) qs) ∧
      (∀ (ltb' : Nat) (acc' : List (List Nat)),
        fcvbInnersLoop nodes qs ltb acc = some (ltb', acc') →
        ltb' = ltb - List.countP
          (fun q => decide ((findClosestVBlocking q nodes).length = 0)) qs ∧
        List.countP (fun q => decide ((findClosestVBlocking q nodes).length = 0)) qs
          < ltb ∧
        acc'.Perm (((qs.filter
          (fun q => !decide ((findClosestVBlocking q nodes).length = 0))).map
            (fun q => findClosestVBlocking q nodes)) ++ acc)) := by
  intro qs
  induction qs with
  | nil =>
    intro ltb acc h
    refine ⟨by simp [fcvbInnersLoop]; omega, ?_⟩
    intro ltb' acc' heq
    rw [fcvbInnersLoop] at heq
    simp only [Option.some.injEq, Prod.mk.injEq] at heq
    obtain ⟨h1, h2⟩ := heq
    subst h1
    subst h2
    simp only [List.countP_nil, List.filter_nil, List.map_nil, List.nil_append]
    exact ⟨by omega, by omega, List.Perm.refl _⟩
  | cons q qs ih =>
    intro ltb acc h
    by_cases hb : (findClosestVBlocking q nodes).length = 0
    · have hbe : findClosestVBlocking q nodes = [] := List.eq_nil_of_length_eq_zero hb
      have hc : List.countP (fun q => decide ((findClosestVBlocking q nodes).length = 0))
          (q :: qs)
          = List.countP (fun q => decide ((findClosestVBlocking q nodes).length = 0)) qs
            + 1 := by
        simp [List.countP_cons, hb, hbe]
      have hfc : (q :: qs).filter
            (fun q => !decide ((findClosestVBlocking q nodes).length = 0))
          = qs.filter (fun q => !decide ((findClosestVBlocking q nodes).length = 0)) := by
        simp [List.filter_cons, hb, hbe]
      rw [hc, hfc]
      by_cases h1 : ltb - 1 = 0
      · have hexp : fcvbInnersLoop nodes (q :: qs) ltb acc = none := by
          rw [fcvbInnersLoop]
          simp only [if_pos hb, if_pos h1]
        refine ⟨by rw [hexp]; simp; omega, ?_⟩
        intro ltb' acc' heq
        rw [hexp] at heq
        exact absurd heq (by simp)
      · have hexp : fcvbInnersLoop nodes (q :: qs) ltb acc
            = fcvbInnersLoop nodes qs (ltb - 1) acc := by
          rw [fcvbInnersLoop]
          simp only [if_pos hb, if_neg h1]
        obtain ⟨ihn, ihs⟩ := ih (ltb - 1) acc (by omega)
        refine ⟨?_, ?_⟩
        · rw [hexp, ihn]
          omega
        · intro ltb' acc' heq
          rw [hexp] at heq
          obtain ⟨e1, e2, e3⟩ := ihs ltb' acc' heq
          exact ⟨by omega, by omega, e3⟩
    · have hbe : ¬ findClosestVBlocking q nodes = [] := by
        intro he
        rw [he] at hb
        exact hb rfl
      have hc : List.countP (fun q => decide ((findClosestVBlocking q nodes).length = 0))
          (q :: qs)
          = List.countP (fun q => decide ((findClosestVBlocking q nodes).length = 0))
            qs := by
        simp [List.countP_cons, hb, hbe]
      have hfc : (q :: qs).filter
            (fun q => !decide ((findClosestVBlocking q nodes).length = 0))
          = q :: qs.filter
              (fun q => !decide ((findClosestVBlocking q nodes).length = 0)) := by
        simp [List.filter_cons, hb, hbe]
      have hexp : fcvbInnersLoop nodes (q :: qs) ltb acc
          = fcvbInnersLoop nodes qs ltb
              (insertBySize (findClosestVBlocking q nodes) acc) := by
        rw [fcvbInnersLoop]
        simp only [if_neg hb]
      rw [hc, hfc, hexp]
      obtain ⟨ihn, ihs⟩ := ih ltb (insertBySize (findClosestVBlocking q nodes) acc) h
      refine ⟨ihn, ?_⟩
      intro ltb' acc' heq
      obtain ⟨e1, e2, e3⟩ := ihs ltb' acc' heq
      refine ⟨e1, e2, ?_⟩
      refine e3.trans ?_
      refine (List.Perm.append_left _ (insertBySize_perm _ acc)).trans ?_
      rw [List.map_cons, List.cons_append]
      exact List.perm_middle

theorem fcvbValsLoop_mem (nodes : List Nat) :
    ∀ (vs : List Nat) (ltb : Nat) (res : List Nat) (ltb' : Nat) (res' : List Nat),
      fcvbValsLoop nodes vs ltb res = some (ltb', res') →
      ∀ x ∈ res', x ∈ res ∨ x ∈ nodes := by
  intro vs
  induction vs with
  | nil =>
    intro ltb res ltb' res' heq x hx
    rw [fcvbValsLoop] at heq
    simp only [Option.some.injEq, Prod.mk.injEq] at heq
    exact Or.inl (heq.2 ▸ hx)
  | cons v vs ih =>
    intro ltb res ltb' res' heq x hx
    by_cases hv : v ∈ nodes
    · rw [fcvbValsLoop, if_pos hv] at heq
      rcases ih ltb (res ++ [v]) ltb' res' heq x hx with h | h
      · rcases List.mem_append.mp h with h | h
        · exact Or.inl h
        · simp only [List.mem_singleton] at h
          exact Or.inr (h ▸ hv)
      · exact Or.inr h
    · rw [fcvbValsLoop, if_neg hv] at heq
      by_cases h1 : ltb - 1 = 0
      · rw [if_pos h1] at heq
        exact absurd heq (by simp)
      · rw [if_neg h1] at heq
        exact ih (ltb - 1) res ltb' res' heq x hx

theorem fcvbInnersLoop_mem (nodes : List Nat) :
    ∀ (qs : List SCPQuorumSet) (ltb : Nat) (acc : List (List Nat)) (ltb' : Nat)
      (acc' : List (List Nat)),
      fcvbInnersLoop nodes qs ltb acc = some (ltb', acc') →
      ∀ w ∈ acc', w ∈ acc ∨ ∃ q ∈ qs, w = findClosestVBlocking q nodes := by
  intro qs
  induction qs with
  | nil =>
    intro ltb acc ltb' acc' heq w hw
    rw [fcvbInnersLoop] at heq
    simp only [Option.some.injEq, Prod.mk.injEq] at heq
    exact Or.inl (heq.2 ▸ hw)
  | cons q qs ih =>
    intro ltb acc ltb' acc' heq w hw
    by_cases hb : (findClosestVBlocking q nodes).length = 0
    · rw [fcvbInnersLoop] at heq
      simp only [if_pos hb] at heq
      by_cases h1 : ltb - 1 = 0
      · rw [if_pos h1] at heq
        exact absurd heq (by simp)
      · rw [if_neg h1] at heq
        rcases ih (ltb - 1) acc ltb' acc' heq w hw with h | ⟨p, hp, he⟩
        · exact Or.inl h
        · exact Or.inr ⟨p, by simp [hp], he⟩
    · rw [fcvbInnersLoop] at heq
      simp only [if_neg hb] at heq
      rcases ih ltb _ ltb' acc' heq w hw with h | ⟨p, hp, he⟩
      · rcases (mem_insertBySize _ acc w).mp h with he | h
        · exact Or.inr ⟨q, by simp, he⟩
        · exact Or.inl h
      · exact Or.inr ⟨p, by simp [hp], he⟩

/-- Every node returned by findClosestVBlocking is one of the candidates. -/
theorem findClosestVBlocking_mem :
    ∀ q (nodes : List Nat), ∀ x ∈ findClosestVBlocking q nodes, x ∈ nodes := by
  intro q
  induction q using qsetInd with
  | h t vs inners ih =>
    intro nodes x hx
    rcases hv : fcvbValsLoop nodes vs ((1 + vs.length + inners.length) - t) []
      with _ | ⟨ltb1, res⟩
    · rw [findClosestVBlocking] at hx
      simp only [hv] at hx
      exact absurd hx (by simp)
    · rcases hi : fcvbInnersLoop nodes inners ltb1 [] with _ | ⟨ltb2, acc⟩
      · rw [findClosestVBlocking] at hx
        simp only [hv, hi] at hx
        exact absurd hx (by simp)
      · rw [findClosestVBlocking] at hx
        simp only [hv, hi] at hx
        rcases List.mem_append.mp hx with h | h
        · have hsub : x ∈ res := by
            by_cases hlen : res.length > ltb2
            · rw [if_pos hlen] at h
              exact List.mem_of_mem_take h
            · rw [if_neg hlen] at h
              exact h
          rcases fcvbValsLoop_mem nodes vs _ [] ltb1 res hv x hsub with h' | h'
          · exact absurd h' (by simp)
          · exact h'
        · rw [takeWitnesses_eq] at h
          obtain ⟨w, hw, hxw⟩ := List.mem_flatten.mp h
          have hw' : w ∈ acc := List.mem_of_mem_take hw
          rcases fcvbInnersLoop_mem nodes inners ltb1 [] ltb2 acc hi w hw'
            with h' | ⟨p, hp, he⟩
          · exact absurd h' (by simp)
          · exact ih p hp nodes x (he ▸ hxw)

/-! ## Counting helpers for the blocking proof -/

theorem countP_decide_not_add {α : Type} (p : α → Prop) [DecidablePred p]
    (l : List α) :
    List.countP (fun a => decide (¬ p a)) l + List.countP (fun a => decide (p a)) l
      = l.length := by
  have h := countP_bool_compl (fun a => decide (p a)) l
  calc List.countP (fun a => decide (¬ p a)) l + List.countP (fun a => decide (p a)) l
  _ = List.countP (fun a => !decide (p a)) l
      + List.countP (fun a => decide (p a)) l := by
    congr 1
    exact List.countP_congr (fun a _ => by simp)
  _ = l.length := h

theorem countP_or_disjoint {α : Type} (p q : α → Bool) (l : List α)
    (h : ∀ a ∈ l, ¬(p a = true ∧ q a = true)) :
    List.countP (fun a => p a || q a) l = List.countP p l + List.countP q l := by
  induction l with
  | nil => simp
  | cons a l ih =>
    have hl := ih (fun b hb => h b (by simp [hb]))
    cases hp : p a <;> cases hq : q a <;>
      simp [List.countP_cons, hp, hq, hl] <;> try omega
    exact absurd ⟨hp, hq⟩ (h a (by simp))

/-- A sub-multiset D of m has no more elements than m has members of D. -/
theorem length_le_countP_mem_of_subperm {β : Type} [DecidableEq β]
    (D m : List β) (h : List.Subperm D m) :
    D.length ≤ List.countP (fun b => decide (b ∈ D)) m := by
  have h1 : (D : Multiset β) ≤ (m : Multiset β) := Multiset.coe_le.mpr h
  have h2 : (D : Multiset β) ≤ Multiset.filter (· ∈ D) (m : Multiset β) :=
    Multiset.le_filter.mpr ⟨h1, fun a ha => ha⟩
  have h3 := Multiset.card_le_card h2
  rw [← Multiset.countP_eq_card_filter, Multiset.coe_countP] at h3
  simpa using h3

theorem mem_missingFrom (q : SCPQuorumSet) (C : List Nat) (x : Nat) :
    x ∈ missingFrom q C ↔ x ∈ nodesOf q ∧ x ∉ C := by
  simp [missingFrom, List.mem_filter]

theorem missingFrom_inner_subset (t : Nat) (vs : List Nat)
    (inners : List SCPQuorumSet) (q : SCPQuorumSet) (hq : q ∈ inners)
    (C : List Nat) :
    ∀ x ∈ missingFrom q C, x ∈ missingFrom ⟨t, vs, inners⟩ C := by
  intro x hx
  rw [mem_missingFrom] at hx ⊢
  refine ⟨?_, hx.2⟩
  rw [nodesOf]
  exact List.mem_append_right _ ((mem_nodesOfList inners x).mpr ⟨q, hq, hx.1⟩)

/-- The witness findClosestVBlocking returns, together with the tree's
validators absent from the candidate set, is v-blocking (on well-formed
trees).  In particular an empty witness means the absent validators alone
already block the tree. -/
theorem findClosestVBlocking_blocks :
    ∀ q, wfThresholds q = true → ∀ nodes : List Nat,
      isVBlockingInternal q (findClosestVBlocking q nodes ++ missingFrom q nodes)
        = true := by
  intro q
  induction q using qsetInd with
  | h t vs inners ih =>
    intro hwf nodes
    have hwf' := hwf
    rw [wfThresholds, Bool.and_eq_true, Bool.and_eq_true, decide_eq_true_eq,
      decide_eq_true_eq, wfThresholdsList_iff] at hwf'
    obtain ⟨⟨ht, htn⟩, hlist⟩ := hwf'
    have hinner : ∀ p ∈ inners, ∀ S : List Nat,
        (∀ x ∈ findClosestVBlocking p nodes ++ missingFrom p nodes, x ∈ S) →
        isVBlockingInternal p S = true := by
      intro p hp S hsub
      exact isVBlockingInternal_mono p (hlist p hp) _ S hsub (ih p hp (hlist p hp) nodes)
    have hMsub : ∀ p ∈ inners, ∀ x ∈ missingFrom p nodes,
        x ∈ missingFrom ⟨t, vs, inners⟩ nodes :=
      fun p hp => missingFrom_inner_subset t vs inners p hp nodes
    have habsent : ∀ v ∈ vs, v ∉ nodes → v ∈ missingFrom ⟨t, vs, inners⟩ nodes := by
      intro v hv hvn
      rw [mem_missingFrom]
      refine ⟨?_, hvn⟩
      rw [nodesOf]
      exact List.mem_append_left _ hv
    have hltb0pos : 1 ≤ 1 + vs.length + inners.length - t := by omega
    have hvspec := fcvbValsLoop_spec nodes vs ((1 + vs.length + inners.length) - t)
      [] hltb0pos
    set ltb0 := (1 + vs.length + inners.length) - t with hltb0def
    set aV := List.countP (fun v => decide (v ∉ nodes)) vs with haVdef
    by_cases hA : ltb0 ≤ aV
    · have hveq : fcvbValsLoop nodes vs ltb0 [] = none := by
        rw [hvspec, if_pos hA]
      have hres : findClosestVBlocking ⟨t, vs, inners⟩ nodes = [] := by
        rw [findClosestVBlocking]
        simp only [hveq]
      rw [hres, List.nil_append, isVBlockingInternal_char t vs inners _ ht htn]
      have h1 : aV ≤ List.countP
          (fun v => decide (v ∈ missingFrom ⟨t, vs, inners⟩ nodes)) vs := by
        rw [haVdef]
        refine List.countP_mono_left (fun v hv hvd => ?_)
        simp only [decide_eq_true_eq] at hvd ⊢
        exact habsent v hv hvd
      omega
    · have hveq : fcvbValsLoop nodes vs ltb0 []
          = some (ltb0 - aV, vs.filter (fun v => decide (v ∈ nodes))) := by
        rw [hvspec, if_neg hA, List.nil_append]
      set res1 := vs.filter (fun v => decide (v ∈ nodes)) with hres1def
      set ltb1 := ltb0 - aV with hltb1def
      have hltb1 : 1 ≤ ltb1 := by omega
      obtain ⟨hispecN, hispecS⟩ := fcvbInnersLoop_spec nodes inners ltb1 [] hltb1
      set bI := List.countP
        (fun q => decide ((findClosestVBlocking q nodes).length = 0)) inners
        with hbIdef
      rcases hi : fcvbInnersLoop nodes inners ltb1 [] with _ | ⟨ltb2, acc⟩
      · have hBle : ltb1 ≤ bI := hispecN.mp hi
        have hres : findClosestVBlocking ⟨t, vs, inners⟩ nodes = [] := by
          rw [findClosestVBlocking]
          simp only [hveq, hi]
        rw [hres, List.nil_append, isVBlockingInternal_char t vs inners _ ht htn]
        have h1 : aV ≤ List.countP
            (fun v => decide (v ∈ missingFrom ⟨t, vs, inners⟩ nodes)) vs := by
          rw [haVdef]
          refine List.countP_mono_left (fun v hv hvd => ?_)
          simp only [decide_eq_true_eq] at hvd ⊢
          exact habsent v hv hvd
        have h2 : bI ≤ List.countP
            (fun q => isVBlockingInternal q (missingFrom ⟨t, vs, inners⟩ nodes))
            inners := by
          rw [hbIdef]
          refine List.countP_mono_left (fun p hp hpd => ?_)
          simp only [decide_eq_true_eq] at hpd
          have hpe : findClosestVBlocking p nodes = [] :=
            List.eq_nil_of_length_eq_zero hpd
          refine hinner p hp _ ?_
          intro x hx
          rw [hpe, List.nil_append] at hx
          exact hMsub p hp x hx
        omega
      · obtain ⟨hltb2eq, hbIlt, hperm⟩ := hispecS ltb2 acc hi
        rw [List.append_nil] at hperm
        have hres : findClosestVBlocking ⟨t, vs, inners⟩ nodes
            = (if res1.length > ltb2 then res1.take ltb2 else res1)
              ++ takeWitnesses
                (ltb2 - (if res1.length > ltb2 then res1.take ltb2 else res1).length)
                acc := by
          rw [findClosestVBlocking]
          simp only [hveq, hi]
        set res' := if res1.length > ltb2 then res1.take ltb2 else res1 with hresPdef
        set consumed := acc.take (ltb2 - res'.length) with hconsdef
        have hresPsublist : List.Sublist res' res1 := by
          rw [hresPdef]
          split_ifs
          · exact List.take_sublist _ _
          · exact List.Sublist.refl _
        have hres1vs : List.Sublist res1 vs := by
          rw [hres1def]
          exact List.filter_sublist vs
        have hresPlen : (res1.length > ltb2 ∧ res'.length = ltb2) ∨
            (¬(res1.length > ltb2) ∧ res'.length = res1.length) := by
          rw [hresPdef]
          split_ifs with hh
          · exact Or.inl ⟨hh, by rw [List.length_take]; omega⟩
          · exact Or.inr ⟨hh, rfl⟩
        have hconslen : consumed.length = min (ltb2 - res'.length) acc.length := by
          rw [hconsdef, List.length_take]
        have hacclen : acc.length = (inners.filter
            (fun q => !decide ((findClosestVBlocking q nodes).length = 0))).length := by
          rw [hperm.length_eq, List.length_map]
        have hfillen : (inners.filter
            (fun q => !decide ((findClosestVBlocking q nodes).length = 0))).length + bI
            = inners.length := by
          rw [hbIdef, ← List.countP_eq_length_filter]
          exact countP_bool_compl _ inners
        have hres1len : res1.length + aV = vs.length := by
          rw [hres1def, haVdef, ← List.countP_eq_length_filter]
          have := countP_decide_not_add (fun v => v ∈ nodes) vs
          omega
        have hwit : takeWitnesses (ltb2 - res'.length) acc = consumed.flatten := by
          rw [takeWitnesses_eq, hconsdef]
        -- validator counting
        have hVor : List.countP (fun v => decide (v ∉ nodes) || decide (v ∈ res')) vs
            = aV + List.countP (fun v => decide (v ∈ res')) vs := by
          rw [haVdef]
          refine countP_or_disjoint _ _ vs ?_
          rintro v _ ⟨h1d, h2d⟩
          simp only [decide_eq_true_eq] at h1d h2d
          have hmem := hresPsublist.subset h2d
          rw [hres1def] at hmem
          have hv2 := List.of_mem_filter hmem
          simp only [decide_eq_true_eq] at hv2
          exact h1d hv2
        have hVres' : res'.length ≤ List.countP (fun v => decide (v ∈ res')) vs :=
          length_le_countP_mem_of_subperm res' vs
            (hresPsublist.trans hres1vs).subperm
        have hVfinal : aV + res'.length ≤ List.countP
            (fun v => decide (v ∈ res'
              ++ takeWitnesses (ltb2 - res'.length) acc
              ++ missingFrom ⟨t, vs, inners⟩ nodes)) vs := by
          have hmono : List.countP (fun v => decide (v ∉ nodes) || decide (v ∈ res')) vs
              ≤ List.countP (fun v => decide (v ∈ res'
                ++ takeWitnesses (ltb2 - res'.length) acc
                ++ missingFrom ⟨t, vs, inners⟩ nodes)) vs := by
            refine List.countP_mono_left (fun v hv hvd => ?_)
            simp only [Bool.or_eq_true, decide_eq_true_eq, List.mem_append] at hvd ⊢
            rcases hvd with h | h
            · exact Or.inr (habsent v hv h)
            · exact Or.inl (Or.inl h)
          omega
        -- inner counting
        have hconsne : ∀ w ∈ consumed, w ≠ [] := by
          intro w hw
          have hw' : w ∈ acc := by
            rw [hconsdef] at hw
            exact List.mem_of_mem_take hw
          have hwm := hperm.mem_iff.mp hw'
          obtain ⟨p, hpf, hpe⟩ := List.mem_map.mp hwm
          have hnz := List.of_mem_filter hpf
          simp only [Bool.not_eq_eq_eq_not, Bool.not_true, decide_eq_false_iff_not]
            at hnz
          intro he
          rw [← hpe] at he
          exact hnz (by rw [he]; rfl)
        have hIor : List.countP
            (fun q => decide ((findClosestVBlocking q nodes).length = 0)
              || decide (findClosestVBlocking q nodes ∈ consumed)) inners
            = bI + List.countP
                (fun q => decide (findClosestVBlocking q nodes ∈ consumed)) inners := by
          rw [hbIdef]
          refine countP_or_disjoint _ _ inners ?_
          rintro p _ ⟨h1d, h2d⟩
          simp only [decide_eq_true_eq] at h1d h2d
          exact hconsne _ h2d (List.eq_nil_of_length_eq_zero h1d)
        have hIcons : consumed.length ≤ List.countP
            (fun q => decide (findClosestVBlocking q nodes ∈ consumed)) inners := by
          have h1 : List.Sublist consumed acc := by
            rw [hconsdef]
            exact List.take_sublist _ _
          have h2 : List.Subperm consumed
              (List.map (fun q => findClosestVBlocking q nodes)
                (inners.filter
                  (fun q => !decide ((findClosestVBlocking q nodes).length = 0)))) :=
            h1.subperm.trans hperm.subperm
          have h3 : List.Subperm consumed
              (List.map (fun q => findClosestVBlocking q nodes) inners) :=
            h2.trans ((List.filter_sublist inners).map _).subperm
          have h4 := length_le_countP_mem_of_subperm consumed _ h3
          rw [List.countP_map] at h4
          refine le_trans h4 (Nat.le_of_eq (List.countP_congr (fun a _ => ?_)))
          simp [Function.comp]
        have hIfinal : bI + consumed.length ≤ List.countP
            (fun q => isVBlockingInternal q (res'
              ++ takeWitnesses (ltb2 - res'.length) acc
              ++ missingFrom ⟨t, vs, inners⟩ nodes)) inners := by
          have hmono : List.countP
              (fun q => decide ((findClosestVBlocking q nodes).length = 0)
                || decide (findClosestVBlocking q nodes ∈ consumed)) inners
              ≤ List.countP
                  (fun q => isVBlockingInternal q (res'
                    ++ takeWitnesses (ltb2 - res'.length) acc
                    ++ missingFrom ⟨t, vs, inners⟩ nodes)) inners := by
            refine List.countP_mono_left (fun p hp hpd => ?_)
            simp only [Bool.or_eq_true, decide_eq_true_eq] at hpd
            refine hinner p hp _ ?_
            intro x hx
            rcases List.mem_append.mp hx with hxw | hxM
            · rcases hpd with h0 | hcons
              · rw [List.eq_nil_of_length_eq_zero h0] at hxw
                exact absurd hxw (by simp)
              · refine List.mem_append_left _ (List.mem_append_right _ ?_)
                rw [hwit]
                exact List.mem_flatten.mpr ⟨_, hcons, hxw⟩
            · exact List.mem_append_right _ (hMsub p hp x hxM)
          omega
        rw [hres, isVBlockingInternal_char t vs inners _ ht htn]
        omega

/-! ## Claim theorems -/

/-- C1: for every well-formed QuorumSet Q (thresholds in range at every node,
no duplicate NodeIDs anywhere) and every node set S, isVBlocking(Q, S) is
true iff there is no node set T disjoint from S with isQuorumSlice(Q, T)
true. -/
theorem C1_isVBlocking_duality (Q : SCPQuorumSet) (S : List Nat)
    (hwf : wellFormedQS Q = true) :
    (isVBlocking Q S = true ↔
      ¬ ∃ T : List Nat, (∀ x ∈ T, x ∉ S) ∧ isQuorumSlice Q T = true) := by
  have hth : wfThresholds Q = true := by
    rw [wellFormedQS, Bool.and_eq_true] at hwf
    exact hwf.1
  rw [isVBlocking]
  simpa only [isQuorumSlice] using vb_duality Q hth S

/-- C1 witness: a concrete well-formed set on which the duality applies. -/
theorem C1_isVBlocking_duality_witness :
    wellFormedQS ⟨1, [0], []⟩ = true ∧
    ¬ ∃ T : List Nat, (∀ x ∈ T, x ∉ ([0] : List Nat)) ∧
      isQuorumSlice ⟨1, [0], []⟩ T = true :=
  ⟨by decide, (C1_isVBlocking_duality ⟨1, [0], []⟩ [0] (by decide)).mp (by decide)⟩

/-- C2: on trees with positive thresholds everywhere, isQuorumSlice agrees
with the spec's recursive satisfaction relation; in particular for
qset = (2, [A, B, C], []) with distinct A, B, C, the sets (A, B), (A) and ()
evaluate to true, false and false. -/
theorem C2_isQuorumSlice_spec (Q : SCPQuorumSet) (S : List Nat) (A B Cn : Nat)
    (hpos : thresholdsPos Q = true) (hAB : A ≠ B) (hAC : A ≠ Cn) (hBC : B ≠ Cn) :
    isQuorumSlice Q S = specSatisfied Q S ∧
    isQuorumSlice ⟨2, [A, B, Cn], []⟩ [A, B] = true ∧
    isQuorumSlice ⟨2, [A, B, Cn], []⟩ [A] = false ∧
    isQuorumSlice ⟨2, [A, B, Cn], []⟩ [] = false := by
  refine ⟨?_, ?_, ?_, ?_⟩
  · rw [isQuorumSlice]
    exact isQuorumSliceInternal_eq_specSatisfied Q hpos S
  · rw [isQuorumSlice, isQuorumSliceInternal_char 2 [A, B, Cn] [] [A, B] (by omega)]
    simp [List.countP_cons, hAC.symm, hBC.symm]
  · rw [isQuorumSlice, Bool.eq_false_iff]
    rw [Ne, isQuorumSliceInternal_char 2 [A, B, Cn] [] [A] (by omega)]
    simp [List.countP_cons, hAB.symm, hAC.symm, hBC.symm]
  · rw [isQuorumSlice, Bool.eq_false_iff]
    rw [Ne, isQuorumSliceInternal_char 2 [A, B, Cn] [] [] (by omega)]
    simp [List.countP_cons]

/-- C2 witness: the spec equivalence and the threshold-exactness examples at
concrete nodes. -/
theorem C2_isQuorumSlice_spec_witness :
    thresholdsPos ⟨1, [0], []⟩ = true ∧ (0 : Nat) ≠ 1 ∧ (0 : Nat) ≠ 2 ∧
    (1 : Nat) ≠ 2 ∧
    (isQuorumSlice ⟨1, [0], []⟩ [0] = specSatisfied ⟨1, [0], []⟩ [0] ∧
     isQuorumSlice ⟨2, [0, 1, 2], []⟩ [0, 1] = true ∧
     isQuorumSlice ⟨2, [0, 1, 2], []⟩ [0] = false ∧
     isQuorumSlice ⟨2, [0, 1, 2], []⟩ [] = false) :=
  ⟨by decide, by decide, by decide, by decide,
    C2_isQuorumSlice_spec ⟨1, [0], []⟩ [0] 0 1 2 (by decide) (by decide)
      (by decide) (by decide)⟩

/-- C3 counterexample: for the well-formed qset (1, [0, 1], []) and candidate
set (0), findClosestVBlocking returns the nonempty witness [0], whose
members all lie in the candidate set, yet isVBlocking(qset, [0]) is false:
the returned witness alone is not v-blocking, contradicting the claim. -/
theorem C3_counterexample :
    wellFormedQS ⟨1, [0, 1], []⟩ = true ∧
    findClosestVBlocking ⟨1, [0, 1], []⟩ [0] = [0] ∧
    isVBlocking ⟨1, [0, 1], []⟩ [0] = false := by decide

/-- C3 (amended): for every well-formed Q and candidate set C, every member
of findClosestVBlocking(Q, C) belongs to C, and the returned witness
together with the tree's validators absent from C is v-blocking for Q. -/
theorem C3_findClosestVBlocking_sound (Q : SCPQuorumSet) (C : List Nat)
    (hwf : wellFormedQS Q = true) :
    (∀ x ∈ findClosestVBlocking Q C, x ∈ C) ∧
    isVBlocking Q (findClosestVBlocking Q C ++ missingFrom Q C) = true := by
  have hth : wfThresholds Q = true := by
    rw [wellFormedQS, Bool.and_eq_true] at hwf
    exact hwf.1
  exact ⟨findClosestVBlocking_mem Q C,
    by rw [isVBlocking]; exact findClosestVBlocking_blocks Q hth C⟩

/-- C3 witness: the amended soundness at the counterexample's inputs. -/
theorem C3_findClosestVBlocking_sound_witness :
    wellFormedQS ⟨1, [0, 1], []⟩ = true ∧
    ((∀ x ∈ findClosestVBlocking ⟨1, [0, 1], []⟩ [0], x ∈ ([0] : List Nat)) ∧
     isVBlocking ⟨1, [0, 1], []⟩
       (findClosestVBlocking ⟨1, [0, 1], []⟩ [0]
         ++ missingFrom ⟨1, [0, 1], []⟩ [0]) = true) :=
  ⟨by decide, C3_findClosestVBlocking_sound ⟨1, [0, 1], []⟩ [0] (by decide)⟩

/-- C4 counterexample: a one-node relevant pool on which the do-while loop
of isQuorum performs 2 filtering rounds, exceeding the claimed bound
of |pNodes| = 1: the node's own quorum set names an absent node, so round 1
shrinks the pool to empty and round 2 is needed to detect the fixed point. -/
theorem C4_counterexample :
    relevantNodes [(0, (⟨1, [1], []⟩ : SCPQuorumSet))] (fun _ => true) = [0] ∧
    quorumRounds (qfunOfMap [(0, (⟨1, [1], []⟩ : SCPQuorumSet))] id) [0] = 2 := by
  refine ⟨by decide, ?_⟩
  have h1 : quorumFilterStep (qfunOfMap [(0, (⟨1, [1], []⟩ : SCPQuorumSet))] id) [0]
      = [] := by decide
  rw [quorumRounds, h1, if_neg (by decide), quorumRounds, if_pos (by decide)]

/-- C4 (amended): the filtering loop of isQuorum terminates after at most
|pNodes| + 1 rounds, and each filtering round never grows the candidate
pool. -/
theorem C4_isQuorum_rounds (α : Type) (map : List (Nat × α))
    (qfun : α → SCPQuorumSet) (filter : α → Bool) :
    quorumRounds (qfunOfMap map qfun) (relevantNodes map filter)
      ≤ (relevantNodes map filter).length + 1 ∧
    ∀ pNodes : List Nat,
      (quorumFilterStep (qfunOfMap map qfun) pNodes).length ≤ pNodes.length ∧
      ∀ x ∈ quorumFilterStep (qfunOfMap map qfun) pNodes, x ∈ pNodes :=
  ⟨quorumRounds_le _ _ _ le_rfl,
    fun _ => ⟨List.length_filter_le _ _, fun _ hx => List.mem_of_mem_filter hx⟩⟩

/-- C5: any QuorumSet with a threshold of 0 or above the entry count at some
node, or with a duplicated validator NodeID anywhere in the tree, is
rejected by isQuorumSetSane. -/
theorem C5_isQuorumSetSane_rejects (mID : Nat) (isV : Bool) (nid : Nat)
    (Q : SCPQuorumSet)
    (h : ¬ wfThresholds Q = true ∨ ¬ (nodesOf Q).Nodup) :
    isQuorumSetSane mID isV nid Q = false := by
  have hint : (isQuorumSetSaneInternal Q []).1 = false := by
    cases hf : (isQuorumSetSaneInternal Q []).1
    · rfl
    · exfalso
      have hw := (saneInternal_empty Q).mp hf
      rw [wellFormedQS, Bool.and_eq_true, decide_eq_true_eq] at hw
      rcases h with h | h
      · exact h hw.1
      · exact h hw.2
  simp only [isQuorumSetSane, hint, Bool.false_and]

/-- C5 witness: a threshold-0 set is rejected. -/
theorem C5_isQuorumSetSane_rejects_witness :
    (¬ wfThresholds ⟨0, [], []⟩ = true ∨ ¬ (nodesOf ⟨0, [], []⟩).Nodup) ∧
    isQuorumSetSane 0 true 0 ⟨0, [], []⟩ = false :=
  ⟨Or.inl (by decide),
    C5_isQuorumSetSane_rejects 0 true 0 ⟨0, [], []⟩ (Or.inl (by decide))⟩

/-- C6: for a well-formed Q not containing nodeID, isQuorumSetSane accepts
iff the local node is a non-validator judging its own configuration; and any
well-formed Q containing nodeID is accepted. -/
theorem C6_isQuorumSetSane_self (mID : Nat) (isV : Bool) (nid : Nat)
    (Q : SCPQuorumSet) (hwf : wellFormedQS Q = true) :
    (nid ∉ nodesOf Q →
      (isQuorumSetSane mID isV nid Q = true ↔ (isV = false ∧ nid = mID))) ∧
    (nid ∈ nodesOf Q → isQuorumSetSane mID isV nid Q = true) := by
  have hint : (isQuorumSetSaneInternal Q []).1 = true := (saneInternal_empty Q).mpr hwf
  have hsnd := saneInternal_empty_snd Q hint
  constructor
  · intro hnot
    simp only [isQuorumSetSane, hint, hsnd, Bool.true_and, List.mem_reverse,
      Bool.or_eq_true, Bool.and_eq_true, decide_eq_true_eq]
    simp only [hnot, false_or]
    constructor
    · rintro ⟨h1, h2⟩
      exact ⟨by simpa using h1, h2⟩
    · rintro ⟨h1, h2⟩
      exact ⟨by simp [h1], h2⟩
  · intro hmem
    simp only [isQuorumSetSane, hint, hsnd, Bool.true_and, List.mem_reverse,
      Bool.or_eq_true, Bool.and_eq_true, decide_eq_true_eq]
    exact Or.inl hmem

/-- C6 witness: a non-validating node accepts its own self-omitting set. -/
theorem C6_isQuorumSetSane_self_witness :
    wellFormedQS ⟨1, [0], []⟩ = true ∧
    ((5 ∉ nodesOf ⟨1, [0], []⟩ →
      (isQuorumSetSane 5 false 5 ⟨1, [0], []⟩ = true ↔
        (false = false ∧ 5 = 5))) ∧
     (5 ∈ nodesOf ⟨1, [0], []⟩ → isQuorumSetSane 5 false 5 ⟨1, [0], []⟩ = true)) :=
  ⟨by decide, C6_isQuorumSetSane_self 5 false 5 ⟨1, [0], []⟩ (by decide)⟩

/-- C7: adjustQSet produces (1, [self], []) when the stripped remainder has
threshold 0 and (2, [self], [remainder]) otherwise, and the remainder never
contains the local node's ID at any depth. -/
theorem C7_adjustQSet_shape (self : Nat) (Q : SCPQuorumSet) :
    adjustQSet self Q =
      (if (adjustQSetHelper self Q).threshold = 0 then ⟨1, [self], []⟩
       else ⟨2, [self], [adjustQSetHelper self Q]⟩) ∧
    self ∉ nodesOf (adjustQSetHelper self Q) := by
  refine ⟨?_, adjustQSetHelper_self_not_mem self Q⟩
  by_cases h : (adjustQSetHelper self Q).threshold = 0
  · simp [adjustQSet, h]
  · simp [adjustQSet, h]

/-- C8: canonicalization is idempotent. -/
theorem C8_adjustQSet_idempotent (self : Nat) (Q : SCPQuorumSet) :
    adjustQSet self (adjustQSet self Q) = adjustQSet self Q := by
  by_cases h : (adjustQSetHelper self Q).threshold = 0
  · have hO : adjustQSet self Q = ⟨1, [self], []⟩ := by simp [adjustQSet, h]
    rw [hO]
    have hh : adjustQSetHelper self ⟨1, [self], []⟩ = ⟨0, [], []⟩ := by
      rw [adjustQSetHelper_unfold]
      simp [adjustInnersLoop, removeSelfLoop, decThreshold]
    simp [adjustQSet, hh]
  · have hfix := adjustQSetHelper_id self _ (adjustQSetHelper_processed self Q)
    have hO : adjustQSet self Q = ⟨2, [self], [adjustQSetHelper self Q]⟩ := by
      simp [adjustQSet, h]
    rw [hO]
    have hil : adjustInnersLoop self [adjustQSetHelper self Q] 2
        = ([adjustQSetHelper self Q], 2) := by
      refine adjustInnersLoop_id self _ 2 ?_
      intro p hp
      simp only [List.mem_singleton] at hp
      subst hp
      exact ⟨hfix, h⟩
    have hrl : removeSelfLoop self [self] 2 = ([], 1) := by
      simp [removeSelfLoop, decThreshold]
    have hh : adjustQSetHelper self ⟨2, [self], [adjustQSetHelper self Q]⟩
        = adjustQSetHelper self Q := by
      rw [adjustQSetHelper_unfold]
      simp [hil, hrl, List.headI]
    simp [adjustQSet, hh, h]

/-- C9: in the two-validator set (1, [A, B], []) both validators weigh
UINT64_MAX / 2, and a node absent from a tree has weight 0. -/
theorem C9_getNodeWeight (A B : Nat) (Q : SCPQuorumSet) (target : Nat)
    (hAB : A ≠ B) (habs : target ∉ nodesOf Q) :
    getNodeWeight A ⟨1, [A, B], []⟩ = UINT64_MAX / 2 ∧
    getNodeWeight B ⟨1, [A, B], []⟩ = UINT64_MAX / 2 ∧
    getNodeWeight target Q = 0 := by
  refine ⟨?_, ?_, getNodeWeight_absent Q target habs⟩
  · rw [getNodeWeight, if_pos (by simp)]
    simp [bigDivide]
  · rw [getNodeWeight, if_pos (by simp)]
    simp [bigDivide]

/-- C9 witness: the weights at concrete nodes. -/
theorem C9_getNodeWeight_witness :
    (0 : Nat) ≠ 1 ∧ (5 : Nat) ∉ nodesOf ⟨1, [0], []⟩ ∧
    (getNodeWeight 0 ⟨1, [0, 1], []⟩ = UINT64_MAX / 2 ∧
     getNodeWeight 1 ⟨1, [0, 1], []⟩ = UINT64_MAX / 2 ∧
     getNodeWeight 5 ⟨1, [0], []⟩ = 0) :=
  ⟨by decide, by decide,
    C9_getNodeWeight 0 1 ⟨1, [0], []⟩ 5 (by decide) (by decide)⟩

/-- C10: updateQuorumSet stores the new set exactly as given (no
canonicalization, no sanity check), rehashes it, and leaves every other
LocalNode field unchanged; the getters then return the stored values. -/
theorem C10_updateQuorumSet (hashQ : SCPQuorumSet → Nat) (ln : LocalNode)
    (newQSet : SCPQuorumSet) :
    getQuorumSet (updateQuorumSet hashQ ln newQSet) = newQSet ∧
    getQuorumSetHash (updateQuorumSet hashQ ln newQSet) = hashQ newQSet ∧
    (updateQuorumSet hashQ ln newQSet).mNodeID = ln.mNodeID ∧
    (updateQuorumSet hashQ ln newQSet).mIsValidator = ln.mIsValidator ∧
    (updateQuorumSet hashQ ln newQSet).mSecretKey = ln.mSecretKey ∧
    (updateQuorumSet hashQ ln newQSet).mSingleQSet = ln.mSingleQSet :=
  ⟨rfl, rfl, rfl, rfl, rfl, rfl⟩
